import Mathlib

/-!
Verification of the Rainsonet payment-rail core against its specification.

The development shallowly embeds the Rust sources:
  - src/modules/relyo/src/ledger.rs       (RelyoLedger: accounts, execute_transaction)
  - src/modules/relyo/src/mempool.rs      (Mempool: add / remove / eviction / get_executable)
  - src/modules/relyo/src/transaction.rs  (RelyoTransaction, total_cost)
  - src/modules/relyo/src/validator.rs    (RelyoTransactionValidator)
  - src/consensus/src/vote.rs             (Vote, VoteCollection, FinalityCertificate)
  - src/consensus/src/validator.rs        (ValidatorSet, required_votes)
  - src/consensus/src/proposal.rs         (Proposal, TrackedProposal, ProposalStore)
  - src/consensus/src/engine.rs           (RainsonetConsensus: proposals, votes, finalization)
  - src/state/src/store.rs                (compute_state_root)
  - src/crypto/src/hashing.rs             (merkle_root)
  - src/node/src/runtime.rs               (NodeRuntime::submit_transaction)

Modelling conventions:
  - Machine integers u64 / u128 are embedded as Nat; saturating operations are
    written explicitly against the u128 bound, and Nat subtraction coincides with
    saturating u64/u128 subtraction on in-range values.
  - 32-byte addresses, node ids and hashes are identified by Nat tokens wherever
    only their identity matters; byte strings are List Nat where contents matter.
  - BLAKE3 and Ed25519 are uninterpreted: hashing is a section parameter, and
    signature verification outcomes are boolean parameters of the operations that
    perform them.
  - Rust HashMaps are embedded as association lists with overwrite-on-insert;
    their unspecified iteration order is made explicit by quantifying over
    permutations where a result depends on it.  BTreeMap (the mempool priority
    index) is an association list kept sorted by key.
  - Locks are erased: all operations are given their sequential semantics.
  - Fallible operations return Except, paired with the post-state so that
    mutation (or its absence) on failure is part of every result.
-/

deriving instance DecidableEq for Except

/-- Largest value of a u128. -/
def U128MAX : Nat := 2 ^ 128 - 1

/-- u128 saturating_add embedded on Nat. -/
def satAdd (a b : Nat) : Nat := min (a + b) U128MAX

/-- u128 saturating_sub embedded on Nat (Nat subtraction already saturates at 0). -/
def satSub (a b : Nat) : Nat := a - b

/-- HashMap insert: overwrite the binding of a key if present, else append it. -/
def upsert {α : Type} (k : Nat) (v : α) : List (Nat × α) → List (Nat × α)
  | [] => [(k, v)]
  | (k0, v0) :: rest =>
      if k0 = k then (k, v) :: rest else (k0, v0) :: upsert k v rest

/-- HashMap remove: drop the binding of a key. -/
def eraseKey {α : Type} (k : Nat) : List (Nat × α) → List (Nat × α)
  | [] => []
  | (k0, v0) :: rest =>
      if k0 = k then rest else (k0, v0) :: eraseKey k rest

/-- HashMap get. -/
def alookup {α : Type} (k : Nat) : List (Nat × α) → Option α
  | [] => none
  | (k0, v0) :: rest => if k0 = k then some v0 else alookup k rest

theorem alookup_upsert_self {α : Type} (k : Nat) (v : α) :
    ∀ l : List (Nat × α), alookup k (upsert k v l) = some v := by
  intro l
  induction l with
  | nil => simp [upsert, alookup]
  | cons hd tl ih =>
      obtain ⟨k0, v0⟩ := hd
      by_cases hk : k0 = k
      · simp [upsert, hk, alookup]
      · simp [upsert, hk, alookup, ih]

theorem alookup_upsert_ne {α : Type} (k j : Nat) (v : α) (hne : j ≠ k) :
    ∀ l : List (Nat × α), alookup j (upsert k v l) = alookup j l := by
  intro l
  have hne2 : ¬ k = j := fun h => hne h.symm
  induction l with
  | nil => simp [upsert, alookup, hne2]
  | cons hd tl ih =>
      obtain ⟨k0, v0⟩ := hd
      by_cases hk : k0 = k
      · subst hk
        simp [upsert, alookup, hne2]
      · simp [upsert, hk, alookup, ih]

namespace Relyo

/-- Account information (ledger.rs, struct Account): balance and nonce of one
address.  The redundant address field of the Rust struct is the association-list
key here. -/
structure Account where
  balance : Nat
  nonce : Nat
deriving DecidableEq, Repr

/-- The default account for a missing key: balance 0, nonce 0. -/
def Account.zero : Account := ⟨0, 0⟩

/-- RelyoTransaction (transaction.rs): the fields consumed by the core.  The
Rust field names from / to are Lean keywords and are rendered fromAddr / toAddr.
public_key and signature are elided: every transaction entering the embedded
operations is a VerifiedTransaction, whose construction has already checked
them. -/
structure Tx where
  fromAddr : Nat
  toAddr : Nat
  amount : Nat
  fee : Nat
  nonce : Nat
  timestamp : Nat
deriving DecidableEq, Repr

/-- RelyoTransaction::total_cost: amount.saturating_add(fee). -/
def Tx.total_cost (tx : Tx) : Nat := satAdd tx.amount tx.fee

/-- VerifiedTransaction (transaction.rs): a transaction together with its
BLAKE3 id, which is opaque here. -/
structure VTx where
  tx : Tx
  tx_id : Nat
deriving DecidableEq, Repr

/-- RainsonetError (core/error.rs): the error variants reached by the embedded
operations. -/
inductive Err where
  | InvalidNonce (expected got : Nat)
  | InsufficientBalance (required available : Nat)
  | FeeTooLow (minimum provided : Nat)
  | TransactionExpired
  | InvalidTransaction
  | NotAValidator
  | InvalidSignature
  | StateVersionMismatch (expected got : Nat)
  | ProposalNotFound
deriving DecidableEq, Repr

/-- The ledger's mutable state (ledger.rs, RelyoLedger): the committed account
entries of the backing KV store (keyed by "account:" || address, an injective
encoding elided here), the pending-change buffer, and the burned counter. -/
structure LedgerState where
  committed : List (Nat × Account)
  pending : List (Nat × Account)
  burned : Nat
deriving DecidableEq, Repr

/-- RelyoLedger::get_account: prefer the pending buffer, then the committed
store, then the (0, 0) default. -/
def get_account (st : LedgerState) (addr : Nat) : Account :=
  match alookup addr st.pending with
  | some a => a
  | none =>
      match alookup addr st.committed with
      | some a => a
      | none => Account.zero

/-- RelyoLedger::execute_transaction (ledger.rs lines 90-161).  Returns the
ledger state after the call together with either the produced state-change list
(address, staged account) or the error; error branches return the input state
unchanged, exactly as the Rust code returns before touching pending_changes or
burned.  burnPercent is config.fee_burn_percent. -/
def execute_transaction (burnPercent : Nat) (st : LedgerState) (tx : Tx) :
    LedgerState × Except Err (List (Nat × Account)) :=
  let sender := get_account st tx.fromAddr
  let recipient := get_account st tx.toAddr
  if tx.nonce ≠ sender.nonce then
    (st, .error (.InvalidNonce sender.nonce tx.nonce))
  else
    let total_cost := tx.total_cost
    if sender.balance < total_cost then
      (st, .error (.InsufficientBalance total_cost sender.balance))
    else
      let burn_amount := tx.fee * burnPercent / 100
      let sender1 : Account := ⟨satSub sender.balance total_cost, sender.nonce + 1⟩
      let recipient1 : Account := ⟨satAdd recipient.balance tx.amount, recipient.nonce⟩
      let burned1 := if burn_amount > 0 then satAdd st.burned burn_amount else st.burned
      let changes := [(tx.fromAddr, sender1), (tx.toAddr, recipient1)]
      let pending1 := upsert tx.toAddr recipient1 (upsert tx.fromAddr sender1 st.pending)
      ({ committed := st.committed, pending := pending1, burned := burned1 },
       .ok changes)

end Relyo

namespace Relyo

theorem execute_transaction_keeps_state_on_error (bp : Nat) (st : LedgerState) (tx : Tx) :
    ∀ e : Err, (execute_transaction bp st tx).2 = .error e →
      (execute_transaction bp st tx).1 = st := by
  intro e
  by_cases hn : tx.nonce = (get_account st tx.fromAddr).nonce
  · by_cases hb : (get_account st tx.fromAddr).balance < satAdd tx.amount tx.fee
    · intro _; simp [execute_transaction, Tx.total_cost, hn, hb]
    · intro hcontra
      simp [execute_transaction, Tx.total_cost, hn, hb] at hcontra
  · intro _; simp [execute_transaction, hn]

/-- C1: evaluation of RelyoLedger::execute_transaction at a concrete verified
self-transfer (from = to) with balance 10, nonce 0, amount 3, fee 1,
fee_burn_percent 50.  The call succeeds, but because the recipient account copy
is loaded before the sender update and staged second, the staged account in the
pending buffer is (balance 13, nonce 0) — balance_before + amount with the
nonce NOT advanced — instead of the (balance 9 = 10 − fee, nonce 1) required by
the specification of self-pay. -/
theorem self_transfer_staged_account_eval :
    (Relyo.execute_transaction 50 ⟨[(1, ⟨10, 0⟩)], [], 0⟩ ⟨1, 1, 3, 1, 0, 0⟩).2 =
        .ok [(1, ⟨6, 1⟩), (1, ⟨13, 0⟩)] ∧
    get_account (Relyo.execute_transaction 50 ⟨[(1, ⟨10, 0⟩)], [], 0⟩ ⟨1, 1, 3, 1, 0, 0⟩).1 1 =
        ⟨13, 0⟩ ∧
    (⟨13, 0⟩ : Account) ≠ ⟨10 - 1, 0 + 1⟩ := by
  refine ⟨?_, ?_, by decide⟩ <;> decide

/-- C5 (counterexample): at the u128 saturation boundary the claimed
InsufficientBalance condition "balance < amount + fee" diverges from the code.
Sender balance 2^128 − 1, amount 2^128 − 1, fee 1, matching nonce: the
mathematical total exceeds the balance, but total_cost saturates to 2^128 − 1
and the comparison balance < total_cost is false, so execute_transaction
succeeds (and mutates the pending buffer) instead of failing. -/
theorem insufficient_balance_missed_at_saturation :
    (⟨1, 2, U128MAX, 1, 0, 0⟩ : Tx).nonce =
        (get_account ⟨[(1, ⟨U128MAX, 0⟩)], [], 0⟩ 1).nonce ∧
    (get_account ⟨[(1, ⟨U128MAX, 0⟩)], [], 0⟩ 1).balance <
        (⟨1, 2, U128MAX, 1, 0, 0⟩ : Tx).amount + (⟨1, 2, U128MAX, 1, 0, 0⟩ : Tx).fee ∧
    (execute_transaction 0 ⟨[(1, ⟨U128MAX, 0⟩)], [], 0⟩ ⟨1, 2, U128MAX, 1, 0, 0⟩).2 =
        .ok [(1, ⟨0, 1⟩), (2, ⟨U128MAX, 0⟩)] := by
  refine ⟨by decide, by decide, by decide⟩

/-- C5 (amended): for every verified transaction, execute_transaction fails
with InvalidNonce{expected, got} iff the transaction nonce differs from the
sender's pending-preferred nonce, fails with InsufficientBalance iff the nonce
matches and the sender's balance is below the SATURATING sum
min(amount + fee, 2^128 − 1), and on either failure returns before mutating
anything: the ledger state (pending buffer, committed store and burned counter)
is exactly the input state. -/
theorem execute_transaction_error_cases (bp : Nat) (st : LedgerState) (tx : Tx) :
    ((execute_transaction bp st tx).2 =
        .error (.InvalidNonce (get_account st tx.fromAddr).nonce tx.nonce) ↔
      tx.nonce ≠ (get_account st tx.fromAddr).nonce) ∧
    ((execute_transaction bp st tx).2 =
        .error (.InsufficientBalance (satAdd tx.amount tx.fee)
          (get_account st tx.fromAddr).balance) ↔
      (tx.nonce = (get_account st tx.fromAddr).nonce ∧
        (get_account st tx.fromAddr).balance < satAdd tx.amount tx.fee)) ∧
    (∀ e : Err, (execute_transaction bp st tx).2 = .error e →
      (execute_transaction bp st tx).1 = st) := by
  refine ⟨?_, ?_, execute_transaction_keeps_state_on_error bp st tx⟩
  · by_cases hn : tx.nonce = (get_account st tx.fromAddr).nonce
    · by_cases hb : (get_account st tx.fromAddr).balance < satAdd tx.amount tx.fee
      · simp [execute_transaction, Tx.total_cost, hn, hb]
      · simp [execute_transaction, Tx.total_cost, hn, hb]
    · simp [execute_transaction, hn]
  · by_cases hn : tx.nonce = (get_account st tx.fromAddr).nonce
    · by_cases hb : (get_account st tx.fromAddr).balance < satAdd tx.amount tx.fee
      · simp [execute_transaction, Tx.total_cost, hn, hb]
      · simp [execute_transaction, Tx.total_cost, hn, hb]
    · simp [execute_transaction, Tx.total_cost, hn]

/-- C5 (witness): the amended characterization applied at concrete inputs: a
nonce-mismatch transaction yields InvalidNonce{expected 0, got 7}. -/
theorem execute_transaction_error_cases_witness :
    (execute_transaction 0 ⟨[(1, ⟨5, 0⟩)], [], 0⟩ ⟨1, 2, 3, 1, 7, 0⟩).2 =
      .error (.InvalidNonce 0 7) := by
  have h := (execute_transaction_error_cases 0 ⟨[(1, ⟨5, 0⟩)], [], 0⟩ ⟨1, 2, 3, 1, 7, 0⟩).1
  exact h.mpr (by decide)

end Relyo

namespace Relyo

/-- Modulus of a u64; `tx.fee.0 as u64` truncates the u128 fee to 64 bits. -/
def U64MOD : Nat := 2 ^ 64

/-- MempoolEntry (mempool.rs): a verified transaction with arrival time and
priority; MempoolEntry::new sets priority to the fee cast to u64. -/
structure MemEntry where
  vtx : VTx
  received_at : Nat
  priority : Nat
deriving DecidableEq, Repr

/-- Strict order on BTreeMap keys (priority, tx_id): lexicographic. -/
def keyPairLt (a b : Nat × Nat) : Bool :=
  a.1 < b.1 || (a.1 = b.1 && a.2 < b.2)

/-- BTreeMap insert for the priority index: keep the association list sorted in
ascending key order, overwriting an existing key. -/
def prioInsert (k : Nat × Nat) (v : Nat) : List ((Nat × Nat) × Nat) → List ((Nat × Nat) × Nat)
  | [] => [(k, v)]
  | (k0, v0) :: rest =>
      if k = k0 then (k, v) :: rest
      else if keyPairLt k k0 then (k, v) :: (k0, v0) :: rest
      else (k0, v0) :: prioInsert k v rest

/-- BTreeMap remove for the priority index. -/
def prioRemove (k : Nat × Nat) : List ((Nat × Nat) × Nat) → List ((Nat × Nat) × Nat)
  | [] => []
  | (k0, v0) :: rest => if k0 = k then rest else (k0, v0) :: prioRemove k rest

/-- HashSet insert, as a duplicate-free id list. -/
def setInsert (x : Nat) (s : List Nat) : List Nat :=
  if x ∈ s then s else s ++ [x]

/-- The mempool (mempool.rs, struct Mempool): primary index by transaction id,
secondary index by sender, priority index ordered by (priority, tx_id), and the
capacity limits. -/
structure Mempool where
  transactions : List (Nat × MemEntry)
  by_sender : List (Nat × List Nat)
  by_priority : List ((Nat × Nat) × Nat)
  max_size : Nat
  max_per_sender : Nat
deriving DecidableEq, Repr

/-- Mempool::remove (mempool.rs lines 113-139): drop the entry from all three
indexes, removing the sender's id set when it becomes empty. -/
def Mempool.remove (m : Mempool) (tx_id : Nat) : Mempool × Option MemEntry :=
  match alookup tx_id m.transactions with
  | none => (m, none)
  | some entry =>
      let sender := entry.vtx.tx.fromAddr
      let transactions1 := eraseKey tx_id m.transactions
      let by_sender1 :=
        match alookup sender m.by_sender with
        | none => m.by_sender
        | some ids =>
            let ids1 := ids.erase tx_id
            if ids1 = [] then eraseKey sender m.by_sender
            else upsert sender ids1 m.by_sender
      let by_priority1 := prioRemove (entry.priority, tx_id) m.by_priority
      ({ m with transactions := transactions1, by_sender := by_sender1,
                by_priority := by_priority1 },
       some entry)

/-- Mempool::evict_lowest_priority (mempool.rs lines 241-251): remove the entry
with the smallest (priority, tx_id) key; false when the priority index is
empty.  (In the Rust code this is reached from add while the transactions write
lock is already held, so remove re-acquires it; the sequential semantics is
given here.) -/
def Mempool.evict_lowest_priority (m : Mempool) : Mempool × Bool :=
  match m.by_priority.head? with
  | some ((_, tx_id), _) => ((m.remove tx_id).1, true)
  | none => (m, false)

/-- Mempool::add (mempool.rs lines 60-110): reject duplicates; when the pool
holds max_size entries first evict the lowest-priority entry (rejecting only if
eviction is impossible); then apply the per-sender limit (after the eviction);
finally insert into all three indexes.  now is Timestamp::now() at the call. -/
def Mempool.add (m : Mempool) (now : Nat) (vtx : VTx) : Mempool × Bool :=
  let tx_id := vtx.tx_id
  let sender := vtx.tx.fromAddr
  if (alookup tx_id m.transactions).isSome then (m, false)
  else
    let step := if m.transactions.length ≥ m.max_size
                then m.evict_lowest_priority else (m, true)
    if step.2 = false then (step.1, false)
    else
      let m1 := step.1
      if ((alookup sender m1.by_sender).getD []).length ≥ m1.max_per_sender then
        (m1, false)
      else
        let priority := vtx.tx.fee % U64MOD
        let entry : MemEntry := ⟨vtx, now, priority⟩
        ({ m1 with
            transactions := upsert tx_id entry m1.transactions,
            by_sender := upsert sender (setInsert tx_id ((alookup sender m1.by_sender).getD []))
              m1.by_sender,
            by_priority := prioInsert (priority, tx_id) tx_id m1.by_priority },
         true)

end Relyo

namespace Relyo

instance : DecidableRel (fun a b : VTx => a.tx.nonce ≤ b.tx.nonce) :=
  fun _ _ => Nat.decLe _ _

/-- Stable sort of one sender's transactions by ascending nonce (mempool.rs
lines 213-215, txs.sort_by_key(nonce)); Rust's sort is stable and insertion
sort is stable, and stable sorts of the same list under the same key agree. -/
def sortByNonce (g : List VTx) : List VTx :=
  List.insertionSort (fun a b : VTx => a.tx.nonce ≤ b.tx.nonce) g

/-- Total length of all groups. -/
def sumLen {α : Type} (gs : List (List α)) : Nat := (gs.map List.length).sum

/-- The round-robin loop of Mempool::get_executable (mempool.rs lines 218-235),
with the Rust while-loop rendered as recursion on an explicit fuel.  One
iteration consumes either an element or an empty group, so the initial fuel
sumLen groups + groups.length makes the fuel-exhausted branch unreachable: the
function returns only through the loop's own exit condition. -/
def rrLoop : Nat → List (List VTx) → Nat → Nat → List VTx → List VTx
  | 0, _, _, _, acc => acc
  | fuel + 1, groups, i, limit, acc =>
      if acc.length < limit ∧ groups ≠ [] then
        let g := groups.getD i []
        let acc1 := match g.head? with
          | some e => acc ++ [e]
          | none => acc
        let g1 := g.tail
        let groups1 := groups.set i g1
        if g1 = [] then
          let groups2 := groups1.eraseIdx i
          let i2 := if groups2 = [] then i else i % groups2.length
          rrLoop fuel groups2 i2 limit acc1
        else
          rrLoop fuel groups1 ((i + 1) % groups1.length) limit acc1
      else acc

/-- Mempool::get_executable (mempool.rs lines 197-238): group the pool's entries
by sender, sort each group by ascending nonce, then interleave round-robin one
transaction per sender per round until limit is reached or every group is
drained.  groups is the by-sender partition of the pool in the (unspecified)
iteration order of the backing HashMaps; theorems quantify over that order. -/
def get_executable (groups : List (List VTx)) (limit : Nat) : List VTx :=
  let sorted := groups.map sortByNonce
  rrLoop (sumLen sorted + sorted.length) sorted 0 limit []

/-- C4: evaluation of Mempool::add at a pool at capacity (max_size 1) holding a
fee-5 transaction, adding a fresh transaction with the strictly lower fee 3.
The code performs no priority comparison: it evicts the resident lowest
(and only) entry and inserts the newcomer, returning true — the claimed
"priority ≤ current minimum is rejected, pool unchanged" behavior does not
exist in the code.  (In the Rust source this path additionally re-acquires the
transactions write lock already held by add; the evaluation is against the
lock-erased sequential semantics.) -/
theorem mempool_add_at_capacity_evicts_lower_priority_eval :
    ((⟨[(10, ⟨⟨⟨1, 9, 0, 5, 0, 0⟩, 10⟩, 0, 5⟩)], [(1, [10])], [((5, 10), 10)], 1, 10⟩ :
        Mempool).add 0 ⟨⟨2, 9, 0, 3, 0, 0⟩, 20⟩).2 = true ∧
    alookup 10 ((⟨[(10, ⟨⟨⟨1, 9, 0, 5, 0, 0⟩, 10⟩, 0, 5⟩)], [(1, [10])], [((5, 10), 10)], 1, 10⟩ :
        Mempool).add 0 ⟨⟨2, 9, 0, 3, 0, 0⟩, 20⟩).1.transactions = none ∧
    (alookup 20 ((⟨[(10, ⟨⟨⟨1, 9, 0, 5, 0, 0⟩, 10⟩, 0, 5⟩)], [(1, [10])], [((5, 10), 10)], 1, 10⟩ :
        Mempool).add 0 ⟨⟨2, 9, 0, 3, 0, 0⟩, 20⟩).1.transactions).isSome = true ∧
    (⟨⟨2, 9, 0, 3, 0, 0⟩, 20⟩ : VTx).tx.fee % U64MOD < 5 := by
  refine ⟨by decide, by decide, by decide, by decide⟩

end Relyo

namespace Relyo

instance : IsTotal VTx (fun a b : VTx => a.tx.nonce ≤ b.tx.nonce) :=
  ⟨fun a b => Nat.le_total a.tx.nonce b.tx.nonce⟩

instance : IsTrans VTx (fun a b : VTx => a.tx.nonce ≤ b.tx.nonce) :=
  ⟨fun _ _ _ hab hbc => Nat.le_trans hab hbc⟩

end Relyo

/-- Two sorted lists that are permutations of one another are equal, provided
the order is antisymmetric on the members involved.  This is the uniqueness of
sorting used to discharge the unspecified iteration order of Rust HashMaps. -/
theorem eq_of_perm_of_sorted_mem {α : Type} {r : α → α → Prop} (l₁ : List α) :
    ∀ l₂ : List α, l₁.Perm l₂ → l₁.Sorted r → l₂.Sorted r →
      (∀ a ∈ l₁, ∀ b ∈ l₁, r a b → r b a → a = b) → l₁ = l₂ := by
  induction l₁ with
  | nil =>
      intro l₂ hp _ _ _
      exact (hp.symm.eq_nil).symm
  | cons a t ih =>
      intro l₂ hp hs₁ hs₂ hanti
      cases l₂ with
      | nil =>
          exact absurd hp.eq_nil (by simp)
      | cons b t₂ =>
          have hab : a = b := by
            have ha2 : a ∈ b :: t₂ := hp.mem_iff.mp (List.mem_cons_self a t)
            have hb1 : b ∈ a :: t := hp.symm.mem_iff.mp (List.mem_cons_self b t₂)
            rcases List.mem_cons.mp ha2 with h | ha3
            · exact h
            · rcases List.mem_cons.mp hb1 with h | hb3
              · exact h.symm
              · exact hanti a (List.mem_cons_self a t)
                  b (List.mem_cons.mpr (Or.inr hb3))
                  (List.rel_of_sorted_cons hs₁ b hb3)
                  (List.rel_of_sorted_cons hs₂ a ha3)
          subst hab
          have ht : t.Perm t₂ := hp.cons_inv
          have hrec : t = t₂ :=
            ih t₂ ht hs₁.of_cons hs₂.of_cons
              (fun x hx y hy => hanti x (List.mem_cons_of_mem _ hx)
                y (List.mem_cons_of_mem _ hy))
          exact congrArg (List.cons a) hrec

namespace Relyo

/-- Any permutation of a nonce-sorted duplicate-free group sorts back to it:
the result of sort_by_key(nonce) is independent of HashMap iteration order. -/
theorem sortByNonce_eq_of_perm (G g : List VTx) (hperm : g.Perm G)
    (hG : G.Sorted (fun a b : VTx => a.tx.nonce ≤ b.tx.nonce))
    (hanti : ∀ a ∈ G, ∀ b ∈ G, a.tx.nonce = b.tx.nonce → a = b) :
    sortByNonce g = G := by
  have hperm2 : (sortByNonce g).Perm G :=
    (List.perm_insertionSort _ g).trans hperm
  refine eq_of_perm_of_sorted_mem _ _ hperm2 ?_ hG ?_
  · exact List.sorted_insertionSort _ g
  · intro a ha b hb hrab hrba
    exact hanti a (hperm2.mem_iff.mp ha) b (hperm2.mem_iff.mp hb)
      (Nat.le_antisymm hrab hrba)

/-- One transaction of the C7 scenario: sender s, nonce n, amount 0, fee 1,
with a distinct id. -/
def c7tx (s n : Nat) : VTx := ⟨⟨s, 9, 0, 1, n, 0⟩, s * 10 + n⟩

/-- One sender's group in the C7 scenario: five transactions, nonces 0..4. -/
def c7group (s : Nat) : List VTx := [c7tx s 0, c7tx s 1, c7tx s 2, c7tx s 3, c7tx s 4]

/-- Round-robin fairness core fact: for every arrangement of the three sorted
sender groups (all six HashMap enumeration orders), the loop extracts three
transactions per sender, each sender's three in nonce order 0, 1, 2. -/
theorem rrLoop_three_senders_arrangements :
    ∀ l ∈ ([c7group 1, c7group 2, c7group 3] : List (List VTx)).permutations',
      ∀ s ∈ ([1, 2, 3] : List Nat),
        ((rrLoop (sumLen l + l.length) l 0 9 []).filter
            (fun v => v.tx.fromAddr == s)).map (fun v => v.tx.nonce) = [0, 1, 2] := by
  decide

/-- C7: get_executable groups by sender, sorts each group by ascending nonce and
selects round-robin one per sender per round; with three senders each holding 5
pending transactions of nonces 0..4 — presented in any per-group order and any
group order, covering every iteration order of the backing HashMaps —
get_executable 9 returns exactly 3 transactions per sender, each sender's three
in nonce order 0, 1, 2. -/
theorem get_executable_round_robin_fairness
    (g1 g2 g3 : List VTx) (gs : List (List VTx))
    (h1 : g1.Perm (c7group 1)) (h2 : g2.Perm (c7group 2)) (h3 : g3.Perm (c7group 3))
    (hgs : gs.Perm [g1, g2, g3]) :
    ∀ s ∈ ([1, 2, 3] : List Nat),
      ((get_executable gs 9).filter (fun v => v.tx.fromAddr == s)).map
        (fun v => v.tx.nonce) = [0, 1, 2] := by
  have hs1 : sortByNonce g1 = c7group 1 :=
    sortByNonce_eq_of_perm _ _ h1 (by decide) (by decide)
  have hs2 : sortByNonce g2 = c7group 2 :=
    sortByNonce_eq_of_perm _ _ h2 (by decide) (by decide)
  have hs3 : sortByNonce g3 = c7group 3 :=
    sortByNonce_eq_of_perm _ _ h3 (by decide) (by decide)
  have hmap : (gs.map sortByNonce).Perm [c7group 1, c7group 2, c7group 3] := by
    have h := hgs.map sortByNonce
    simpa [hs1, hs2, hs3] using h
  have hcore := rrLoop_three_senders_arrangements (gs.map sortByNonce)
    (List.mem_permutations'.mpr hmap)
  simpa [get_executable] using hcore

/-- C7 (witness): the fairness theorem applied at the identity arrangement of
the three sender groups. -/
theorem get_executable_round_robin_fairness_witness :
    ((get_executable [c7group 1, c7group 2, c7group 3] 9).filter
        (fun v => v.tx.fromAddr == 1)).map (fun v => v.tx.nonce) = [0, 1, 2] ∧
    ((get_executable [c7group 1, c7group 2, c7group 3] 9).filter
        (fun v => v.tx.fromAddr == 2)).map (fun v => v.tx.nonce) = [0, 1, 2] ∧
    ((get_executable [c7group 1, c7group 2, c7group 3] 9).filter
        (fun v => v.tx.fromAddr == 3)).map (fun v => v.tx.nonce) = [0, 1, 2] := by
  have h := get_executable_round_robin_fairness (c7group 1) (c7group 2) (c7group 3)
    [c7group 1, c7group 2, c7group 3]
    (List.Perm.refl _) (List.Perm.refl _) (List.Perm.refl _) (List.Perm.refl _)
  exact ⟨h 1 (by simp), h 2 (by simp), h 3 (by simp)⟩

end Relyo

namespace StateStore

/-- Hash::ZERO, the all-zero 32-byte hash. -/
def hashZero : List Nat := List.replicate 32 0

/-- StateEntry (state/store.rs): one key-value pair of the KV store. -/
structure StateEntry where
  key : List Nat
  value : List Nat
deriving DecidableEq, Repr

/-- StateEntry::hash: BLAKE3 over key || value, with BLAKE3 an uninterpreted
function H on byte strings. -/
def entryHash (H : List Nat → List Nat) (e : StateEntry) : List Nat :=
  H (e.key ++ e.value)

/-- Lexicographic byte-string comparison, the Ord used by
sorted.sort_by(|a, b| a.key.cmp(&b.key)) on Vec of u8: a proper prefix is
smaller. -/
def bytesLe : List Nat → List Nat → Bool
  | [], _ => true
  | _ :: _, [] => false
  | a :: as, b :: bs => if a < b then true else if b < a then false else bytesLe as bs

theorem bytesLe_total : ∀ a b : List Nat, bytesLe a b = true ∨ bytesLe b a = true
  | [], _ => Or.inl rfl
  | _ :: _, [] => Or.inr rfl
  | a :: as, b :: bs => by
      rcases Nat.lt_trichotomy a b with h | h | h
      · left; simp [bytesLe, h]
      · subst h
        rcases bytesLe_total as bs with ih | ih
        · left; simp [bytesLe, ih]
        · right; simp [bytesLe, ih]
      · right; simp [bytesLe, h]

theorem bytesLe_trans : ∀ a b c : List Nat,
    bytesLe a b = true → bytesLe b c = true → bytesLe a c = true
  | [], _, _, _, _ => rfl
  | _ :: _, [], _, hab, _ => by simp [bytesLe] at hab
  | _ :: _, _ :: _, [], _, hbc => by simp [bytesLe] at hbc
  | a :: as, b :: bs, c :: cs, hab, hbc => by
      by_cases h1 : a < b
      · by_cases h2 : b < c
        · simp [bytesLe, Nat.lt_trans h1 h2]
        · by_cases h3 : c < b
          · simp [bytesLe, h2, h3] at hbc
          · have : b = c := Nat.le_antisymm (Nat.le_of_not_lt h3) (Nat.le_of_not_lt h2)
            subst this
            simp [bytesLe, h1]
      · by_cases h1b : b < a
        · simp [bytesLe, h1, h1b] at hab
        · have hba : a = b := Nat.le_antisymm (Nat.le_of_not_lt h1b) (Nat.le_of_not_lt h1)
          subst hba
          by_cases h2 : a < c
          · simp [bytesLe, h2]
          · by_cases h3 : c < a
            · simp [bytesLe, h2, h3] at hbc
            · have : a = c := Nat.le_antisymm (Nat.le_of_not_lt h3) (Nat.le_of_not_lt h2)
              subst this
              simp [bytesLe] at hab hbc ⊢
              exact bytesLe_trans as bs cs hab hbc

theorem bytesLe_antisymm : ∀ a b : List Nat,
    bytesLe a b = true → bytesLe b a = true → a = b
  | [], [], _, _ => rfl
  | [], _ :: _, _, hba => by simp [bytesLe] at hba
  | _ :: _, [], hab, _ => by simp [bytesLe] at hab
  | a :: as, b :: bs, hab, hba => by
      rcases Nat.lt_trichotomy a b with h | h | h
      · simp [bytesLe, h, Nat.lt_asymm h] at hba
      · subst h
        simp [bytesLe] at hab hba
        rw [bytesLe_antisymm as bs hab hba]
      · simp [bytesLe, h, Nat.lt_asymm h] at hab

/-- Key order on state entries used by compute_state_root's sort. -/
def keyLe (a b : StateEntry) : Prop := bytesLe a.key b.key = true

instance : DecidableRel keyLe := fun a b => decEq (bytesLe a.key b.key) true

instance : IsTotal StateEntry keyLe :=
  ⟨fun a b => bytesLe_total a.key b.key⟩

instance : IsTrans StateEntry keyLe :=
  ⟨fun _ _ _ hab hbc => bytesLe_trans _ _ _ hab hbc⟩

/-- The stable sort of entries by key (store.rs line 57); Rust sort_by is
stable, as is insertion sort. -/
def sortEntries (es : List StateEntry) : List StateEntry :=
  List.insertionSort keyLe es

/-- One level of the Merkle fold (hashing.rs lines 52-60): chunks(2), a full
chunk hashing the concatenation of its two nodes, and a trailing singleton
chunk hashing the node with itself. -/
def merkleLevel (H : List Nat → List Nat) : List (List Nat) → List (List Nat)
  | [] => []
  | [x] => [H (x ++ x)]
  | x :: y :: rest => H (x ++ y) :: merkleLevel H rest

/-- The while-loop of merkle_root, as recursion on an explicit fuel; each
level at least halves a list of length ≥ 2, so fuel = initial length makes the
fuel-exhausted branch unreachable. -/
def merkleFoldAux (H : List Nat → List Nat) : Nat → List (List Nat) → List (List Nat)
  | 0, cur => cur
  | fuel + 1, cur => if cur.length > 1 then merkleFoldAux H fuel (merkleLevel H cur) else cur

/-- merkle_root (hashing.rs lines 38-66). -/
def merkle_root (H : List Nat → List Nat) (leaves : List (List Nat)) : List Nat :=
  if leaves.isEmpty then hashZero
  else if leaves.length = 1 then leaves.headD hashZero
  else (merkleFoldAux H leaves.length leaves).headD hashZero

/-- compute_state_root (state/store.rs lines 50-64): empty short-circuit, sort
by key, hash leaves, Merkle fold. -/
def compute_state_root (H : List Nat → List Nat) (entries : List StateEntry) : List Nat :=
  if entries.isEmpty then hashZero
  else merkle_root H ((sortEntries entries).map (entryHash H))

/-- Appending a trailing node to an even-count level hashes it with itself:
the odd-chunk case of the Merkle fold. -/
theorem merkleLevel_append_odd (H : List Nat → List Nat) :
    ∀ (l : List (List Nat)) (x : List Nat), l.length % 2 = 0 →
      merkleLevel H (l ++ [x]) = merkleLevel H l ++ [H (x ++ x)]
  | [], x, _ => by simp [merkleLevel]
  | [a], _, h => by simp at h
  | a :: b :: t, x, h => by
      have ht : t.length % 2 = 0 := by
        simp [List.length_cons] at h
        omega
      have ih := merkleLevel_append_odd H t x ht
      simp [merkleLevel, ih]

end StateStore

namespace StateStore

/-- C8: compute_state_root is a pure function of the entry set — permutations
of a duplicate-free-keyed entry list (any insertion order, any backend
enumeration) yield the same root; the root of an empty store is the all-zero
hash; the root of a single-entry store is its leaf hash H(key || value); and
appending the trailing node of an odd-count level hashes it with itself. -/
theorem compute_state_root_pure (H : List Nat → List Nat)
    (l₁ l₂ : List StateEntry) (e : StateEntry) (lvl : List (List Nat)) (x : List Nat)
    (hperm : l₁.Perm l₂) (hkeys : (l₁.map StateEntry.key).Nodup)
    (hlvl : lvl.length % 2 = 0) :
    compute_state_root H l₁ = compute_state_root H l₂ ∧
    compute_state_root H [] = hashZero ∧
    compute_state_root H [e] = entryHash H e ∧
    merkleLevel H (lvl ++ [x]) = merkleLevel H lvl ++ [H (x ++ x)] := by
  refine ⟨?_, rfl, rfl, merkleLevel_append_odd H lvl x hlvl⟩
  have hsort : sortEntries l₁ = sortEntries l₂ := by
    apply eq_of_perm_of_sorted_mem
    · exact (List.perm_insertionSort _ l₁).trans
        (hperm.trans (List.perm_insertionSort _ l₂).symm)
    · exact List.sorted_insertionSort _ l₁
    · exact List.sorted_insertionSort _ l₂
    · intro a ha b hb hrab hrba
      have ha1 : a ∈ l₁ := (List.perm_insertionSort keyLe l₁).mem_iff.mp ha
      have hb1 : b ∈ l₁ := (List.perm_insertionSort keyLe l₁).mem_iff.mp hb
      exact List.inj_on_of_nodup_map hkeys ha1 hb1 (bytesLe_antisymm _ _ hrab hrba)
  by_cases hnil : l₁ = []
  · subst hnil
    have h2 : l₂ = [] := hperm.symm.eq_nil
    subst h2
    rfl
  · have hnil2 : l₂ ≠ [] := fun h => hnil (by
      subst h
      exact hperm.eq_nil)
    simp [compute_state_root, List.isEmpty_iff, hnil, hnil2, hsort]

/-- C8 (witness): the purity theorem applied to the concrete two-entry store
{[1] ↦ [10], [2] ↦ [20]} presented in both orders, with the identity as the
uninterpreted hash, at the entry ([1], [10]) and at the singleton odd level. -/
theorem compute_state_root_pure_witness :
    compute_state_root (fun b => b) [⟨[1], [10]⟩, ⟨[2], [20]⟩] =
      compute_state_root (fun b => b) [⟨[2], [20]⟩, ⟨[1], [10]⟩] ∧
    compute_state_root (fun b => b) [] = hashZero ∧
    compute_state_root (fun b => b) [⟨[1], [10]⟩] = entryHash (fun b => b) ⟨[1], [10]⟩ ∧
    merkleLevel (fun b => b) ([] ++ [[7]]) = merkleLevel (fun b => b) [] ++ [[7] ++ [7]] := by
  exact compute_state_root_pure (fun b => b) [⟨[1], [10]⟩, ⟨[2], [20]⟩]
    [⟨[2], [20]⟩, ⟨[1], [10]⟩] ⟨[1], [10]⟩ [] [7] (by decide) (by decide) (by decide)

end StateStore

namespace Consensus

/-- StateChange (core/types.rs): a set or delete of one KV-store key. -/
inductive StateChange where
  | Set (key value : List Nat)
  | Delete (key : List Nat)
deriving DecidableEq, Repr

/-- Vote (consensus/vote.rs): all fields except the Ed25519 signature, whose
verification outcome is a boolean parameter of the receiving operations. -/
structure Vote where
  proposal_id : Nat
  voter : Nat
  approve : Bool
  state_version : Nat
  state_root : Nat
  timestamp : Nat
deriving DecidableEq, Repr

/-- VoteCollection (vote.rs lines 100-143): the vote list and the two
redundant counters maintained by add. -/
structure VoteCollection where
  votes : List Vote
  votes_for : Nat
  votes_against : Nat
deriving DecidableEq, Repr

/-- VoteCollection::new. -/
def VoteCollection.empty : VoteCollection := ⟨[], 0, 0⟩

/-- VoteCollection::add (vote.rs lines 113-127): drop a duplicate voter
(returning false), otherwise bump the matching counter and push the vote. -/
def VoteCollection.addVote (c : VoteCollection) (v : Vote) : VoteCollection × Bool :=
  if c.votes.any (fun w => w.voter == v.voter) then (c, false)
  else
    ({ votes := c.votes ++ [v],
       votes_for := if v.approve then c.votes_for + 1 else c.votes_for,
       votes_against := if v.approve then c.votes_against else c.votes_against + 1 },
     true)

/-- VoteCollection::has_consensus: votes_for ≥ required. -/
def VoteCollection.has_consensus (c : VoteCollection) (required : Nat) : Bool :=
  decide (required ≤ c.votes_for)

/-- VoteCollection::is_rejected: votes_against > total − required (usize
subtraction; total ≥ 1 ≥ required − ... in every reachable call, and Nat
subtraction matches the Rust value whenever it does not underflow). -/
def VoteCollection.is_rejected (c : VoteCollection) (total required : Nat) : Bool :=
  decide (total - required < c.votes_against)

/-- FinalityCertificate (vote.rs lines 146-181). -/
structure FinalityCertificate where
  proposal_id : Nat
  state_version : Nat
  state_root : Nat
  votes : List Vote
  finalized_at : Nat
deriving DecidableEq, Repr

/-- FinalityCertificate::verify (vote.rs lines 172-175): count the approve
votes — all of them, with no validator-membership check — and compare against
the threshold. -/
def FinalityCertificate.verify (c : FinalityCertificate) (required_votes : Nat) : Bool :=
  decide (required_votes ≤ (c.votes.filter (fun v => v.approve)).length)

/-- ValidatorInfo (consensus/validator.rs): public key (opaque token), stake
and the active flag. -/
structure ValidatorInfo where
  public_key : Nat
  stake : Nat
  active : Bool
deriving DecidableEq, Repr

/-- ValidatorSet::is_validator: present and active. -/
def is_validator (vs : List (Nat × ValidatorInfo)) (node_id : Nat) : Bool :=
  match alookup node_id vs with
  | some v => v.active
  | none => false

/-- ValidatorSet::active_count.  The Rust code maintains this as a counter;
with_validators initializes it to the number of active entries and no modelled
operation changes the set, so the derived count coincides with the counter. -/
def active_count (vs : List (Nat × ValidatorInfo)) : Nat :=
  (vs.filter (fun p => p.2.active)).length

/-- ValidatorSet::required_votes: active_count * 2 / 3 + 1. -/
def required_votes (vs : List (Nat × ValidatorInfo)) : Nat :=
  active_count vs * 2 / 3 + 1

/-- ValidatorSet::verify_signature: NotAValidator when the node id has no
registered public key, otherwise the Ed25519 outcome, passed in as ok. -/
def verify_signature (vs : List (Nat × ValidatorInfo)) (node_id : Nat) (ok : Bool) :
    Except Relyo.Err Unit :=
  match alookup node_id vs with
  | none => .error .NotAValidator
  | some _ => if ok then .ok () else .error .InvalidSignature

/-- Proposal (consensus/proposal.rs): all fields except the signature; the id
and changes_hash are BLAKE3 digests, opaque tokens here supplied by the caller
of create_proposal. -/
structure Proposal where
  id : Nat
  proposer : Nat
  state_version : Nat
  previous_root : Nat
  new_root : Nat
  tx_ids : List Nat
  changes_hash : Nat
  timestamp : Nat
deriving DecidableEq, Repr

/-- ProposalStatus (proposal.rs). -/
inductive ProposalStatus where
  | Pending
  | Approved
  | Rejected
  | Expired
deriving DecidableEq, Repr

/-- TrackedProposal (proposal.rs lines 141-193). -/
structure TrackedProposal where
  proposal : Proposal
  status : ProposalStatus
  votes_for : Nat
  votes_against : Nat
  voters : List (Nat × Bool)
  state_changes : List StateChange
deriving DecidableEq, Repr

/-- TrackedProposal::new. -/
def TrackedProposal.init (p : Proposal) (changes : List StateChange) : TrackedProposal :=
  ⟨p, .Pending, 0, 0, [], changes⟩

/-- TrackedProposal::add_vote. -/
def TrackedProposal.add_vote (tp : TrackedProposal) (voter : Nat) (approve : Bool) :
    TrackedProposal × Bool :=
  if (alookup voter tp.voters).isSome then (tp, false)
  else
    ({ tp with
        voters := upsert voter approve tp.voters,
        votes_for := if approve then tp.votes_for + 1 else tp.votes_for,
        votes_against := if approve then tp.votes_against else tp.votes_against + 1 },
     true)

/-- ProposalStore (proposal.rs lines 196-275): proposals keyed by id plus the
by-version index. -/
structure ProposalStore where
  proposals : List (Nat × TrackedProposal)
  by_version : List (Nat × Nat)
deriving DecidableEq, Repr

/-- ProposalStore::new. -/
def ProposalStore.empty : ProposalStore := ⟨[], []⟩

/-- ProposalStore::add. -/
def ProposalStore.addP (ps : ProposalStore) (p : Proposal) (changes : List StateChange) :
    ProposalStore :=
  { proposals := upsert p.id (TrackedProposal.init p changes) ps.proposals,
    by_version := upsert p.state_version p.id ps.by_version }

/-- ProposalStore::get. -/
def ProposalStore.getP (ps : ProposalStore) (id : Nat) : Option Proposal :=
  (alookup id ps.proposals).map (fun tp => tp.proposal)

/-- ProposalStore::add_vote. -/
def ProposalStore.add_voteP (ps : ProposalStore) (id voter : Nat) (approve : Bool) :
    ProposalStore × Bool :=
  match alookup id ps.proposals with
  | none => (ps, false)
  | some tp =>
      let r := tp.add_vote voter approve
      ({ ps with proposals := upsert id r.1 ps.proposals }, r.2)

/-- ConsensusEvent (engine.rs lines 21-34). -/
inductive Event where
  | ProposalCreated (id : Nat)
  | ProposalReceived (id : Nat)
  | VoteCast (id voter : Nat) (approve : Bool)
  | StateFinalized (version root : Nat) (cert : FinalityCertificate)
  | ProposalRejected (id : Nat)
  | ProposalExpired (id : Nat)
deriving DecidableEq, Repr

/-- RainsonetConsensus (engine.rs lines 37-47).  emit_event is modelled as
appending to events (the bounded channel's try_send may drop events when a
subscriber lags; the claims concern which events the engine emits). -/
structure Engine where
  validator_set : List (Nat × ValidatorInfo)
  local_validator : Option Nat
  proposal_store : ProposalStore
  vote_collections : List (Nat × VoteCollection)
  finalized_version : Nat
  finalized_root : Nat
  certificates : List FinalityCertificate
  events : List Event
deriving DecidableEq, Repr

/-- RainsonetConsensus::finalize_proposal (engine.rs lines 248-286): build the
certificate from the current vote collection, advance finalized_version to the
proposal's version, set finalized_root, append the certificate and emit
StateFinalized.  now is Timestamp::now() at the call. -/
def finalize_proposal (now : Nat) (e : Engine) (pid : Nat) : Except Relyo.Err Engine :=
  match ProposalStore.getP e.proposal_store pid with
  | none => .error .ProposalNotFound
  | some p =>
      let votes :=
        match alookup pid e.vote_collections with
        | some c => c.votes
        | none => []
      let cert : FinalityCertificate := ⟨pid, p.state_version, p.new_root, votes, now⟩
      .ok { e with
        finalized_version := p.state_version,
        finalized_root := p.new_root,
        certificates := e.certificates ++ [cert],
        events := e.events ++ [.StateFinalized p.state_version p.new_root cert] }

/-- RainsonetConsensus::receive_vote (engine.rs lines 198-245): check the voter
is an active validator, verify the signature (sigOkV is the Ed25519 outcome),
silently succeed when the proposal has no vote collection or the voter already
voted, otherwise record the vote, emit VoteCast, then finalize on quorum or
emit ProposalRejected when the against-count crosses. -/
def receive_vote (sigOkV : Vote → Bool) (now : Nat) (e : Engine) (v : Vote) :
    Except Relyo.Err Engine :=
  if is_validator e.validator_set v.voter = false then .error .NotAValidator
  else
    match verify_signature e.validator_set v.voter (sigOkV v) with
    | .error err => .error err
    | .ok _ =>
        match alookup v.proposal_id e.vote_collections with
        | none => .ok e
        | some c =>
            let r := c.addVote v
            if r.2 = false then .ok e
            else
              let e1 := { e with
                vote_collections := upsert v.proposal_id r.1 e.vote_collections,
                events := e.events ++ [.VoteCast v.proposal_id v.voter v.approve] }
              let required := required_votes e.validator_set
              let total := active_count e.validator_set
              if r.1.has_consensus required then finalize_proposal now e1 v.proposal_id
              else if r.1.is_rejected total required then
                .ok { e1 with
                  proposal_store :=
                    (ProposalStore.add_voteP e1.proposal_store v.proposal_id v.voter v.approve).1,
                  events := e1.events ++ [.ProposalRejected v.proposal_id] }
              else .ok e1

/-- RainsonetConsensus::vote_on_proposal (engine.rs lines 171-195): requires a
local validator and a stored proposal, signs a vote carrying the engine's
finalized version and root, and feeds it through receive_vote. -/
def vote_on_proposal (sigOkV : Vote → Bool) (now : Nat) (e : Engine) (pid : Nat)
    (approve : Bool) : Except Relyo.Err (Engine × Vote) :=
  match e.local_validator with
  | none => .error .NotAValidator
  | some localId =>
      match ProposalStore.getP e.proposal_store pid with
      | none => .error .ProposalNotFound
      | some _ =>
          let v : Vote := ⟨pid, localId, approve, e.finalized_version, e.finalized_root, now⟩
          match receive_vote sigOkV now e v with
          | .error err => .error err
          | .ok e1 => .ok (e1, v)

/-- RainsonetConsensus::receive_proposal (engine.rs lines 132-168): check the
proposer is an active validator, verify the proposer signature (sigOkP), check
state_version = finalized_version + 1, store the proposal with an empty vote
collection, emit ProposalReceived, and auto-approve when the local node is a
validator. -/
def receive_proposal (sigOkP : Proposal → Bool) (sigOkV : Vote → Bool) (now : Nat)
    (e : Engine) (p : Proposal) (changes : List StateChange) : Except Relyo.Err Engine :=
  if is_validator e.validator_set p.proposer = false then .error .NotAValidator
  else
    match verify_signature e.validator_set p.proposer (sigOkP p) with
    | .error err => .error err
    | .ok _ =>
        if p.state_version ≠ e.finalized_version + 1 then
          .error (.StateVersionMismatch (e.finalized_version + 1) p.state_version)
        else
          let e1 := { e with
            proposal_store := e.proposal_store.addP p changes,
            vote_collections := upsert p.id VoteCollection.empty e.vote_collections,
            events := e.events ++ [.ProposalReceived p.id] }
          if e1.local_validator.isSome then
            match vote_on_proposal sigOkV now e1 p.id true with
            | .error err => .error err
            | .ok r => .ok r.1
          else .ok e1

/-- RainsonetConsensus::create_proposal (engine.rs lines 91-129): requires a
local validator, targets finalized_version + 1, stores the proposal with an
empty vote collection and emits ProposalCreated.  pid and changes_hash stand
for the BLAKE3 digests Proposal::new computes. -/
def create_proposal (now pid : Nat) (e : Engine) (previous_root new_root : Nat)
    (tx_ids : List Nat) (changes_hash : Nat) (changes : List StateChange) :
    Except Relyo.Err (Engine × Proposal) :=
  match e.local_validator with
  | none => .error .NotAValidator
  | some localId =>
      let p : Proposal :=
        ⟨pid, localId, e.finalized_version + 1, previous_root, new_root, tx_ids,
          changes_hash, now⟩
      .ok ({ e with
        proposal_store := e.proposal_store.addP p changes,
        vote_collections := upsert p.id VoteCollection.empty e.vote_collections,
        events := e.events ++ [.ProposalCreated p.id] }, p)

end Consensus

namespace Consensus

/-- The specification's certificate rule, stated for comparison with the code:
count only approve-votes whose voter is known to the validator set. -/
def spec_certificate_rule (vs : List (Nat × ValidatorInfo)) (c : FinalityCertificate)
    (required : Nat) : Bool :=
  decide (required ≤ (c.votes.filter
    (fun v => v.approve && (alookup v.voter vs).isSome)).length)

/-- C2 (counterexample): a certificate holding a single approve-vote from voter
7, checked against an empty validator set with quorum threshold 1.  The code's
verify accepts it (it never consults the validator set), while the claimed
known-validator count is 0 < 1. -/
theorem certificate_verify_counts_unknown_voters :
    FinalityCertificate.verify ⟨1, 1, 0, [⟨1, 7, true, 0, 0, 0⟩], 0⟩ 1 = true ∧
    spec_certificate_rule [] ⟨1, 1, 0, [⟨1, 7, true, 0, 0, 0⟩], 0⟩ 1 = false := by
  exact ⟨by decide, by decide⟩

/-- C2 (amended): verify(required_votes) returns true iff the number of
approve-votes among ALL votes in the certificate — with no validator-membership
filter — meets required_votes; it coincides with the specification's
known-validator count exactly on certificates all of whose approving voters are
known to the validator set. -/
theorem certificate_verify_iff (c : FinalityCertificate) (r : Nat) :
    (c.verify r = true ↔ r ≤ (c.votes.filter (fun v => v.approve)).length) ∧
    (∀ vs : List (Nat × ValidatorInfo),
      (∀ v ∈ c.votes, v.approve = true → (alookup v.voter vs).isSome = true) →
      spec_certificate_rule vs c r = c.verify r) := by
  constructor
  · simp [FinalityCertificate.verify]
  · intro vs hknown
    have hfe : c.votes.filter (fun v => v.approve && (alookup v.voter vs).isSome) =
        c.votes.filter (fun v => v.approve) := by
      apply List.filter_congr
      intro v hv
      cases happ : v.approve with
      | false => simp [happ]
      | true => simp [happ, hknown v hv happ]
    simp [spec_certificate_rule, FinalityCertificate.verify, hfe]

/-- C2 (witness): the amended characterization applied to a concrete
certificate with two approve-votes from voters registered in a two-validator
set, at threshold 2. -/
theorem certificate_verify_iff_witness :
    (FinalityCertificate.verify ⟨1, 1, 0, [⟨1, 7, true, 0, 0, 0⟩, ⟨1, 8, true, 0, 0, 1⟩], 0⟩ 2 =
        true ↔ 2 ≤ ((⟨1, 1, 0, [⟨1, 7, true, 0, 0, 0⟩, ⟨1, 8, true, 0, 0, 1⟩], 0⟩ :
          FinalityCertificate).votes.filter (fun v => v.approve)).length) ∧
    spec_certificate_rule [(7, ⟨0, 1, true⟩), (8, ⟨0, 1, true⟩)]
        ⟨1, 1, 0, [⟨1, 7, true, 0, 0, 0⟩, ⟨1, 8, true, 0, 0, 1⟩], 0⟩ 2 =
      FinalityCertificate.verify ⟨1, 1, 0, [⟨1, 7, true, 0, 0, 0⟩, ⟨1, 8, true, 0, 0, 1⟩], 0⟩ 2 := by
  have h := certificate_verify_iff ⟨1, 1, 0, [⟨1, 7, true, 0, 0, 0⟩, ⟨1, 8, true, 0, 0, 1⟩], 0⟩ 2
  exact ⟨h.1, h.2 [(7, ⟨0, 1, true⟩), (8, ⟨0, 1, true⟩)] (by decide)⟩

/-- C10: a vote from an active validator with a valid signature whose
proposal_id has no vote collection in the engine returns Ok and leaves the
engine exactly unchanged: nothing is recorded, no event is emitted, and the
finalized version, certificates and vote collections are untouched. -/
theorem receive_vote_unknown_proposal_noop (sigOkV : Vote → Bool) (now : Nat)
    (e : Engine) (v : Vote)
    (hval : is_validator e.validator_set v.voter = true)
    (hsig : sigOkV v = true)
    (hnone : alookup v.proposal_id e.vote_collections = none) :
    receive_vote sigOkV now e v = .ok e := by
  have hinfo : ∃ info, alookup v.voter e.validator_set = some info := by
    unfold is_validator at hval
    cases h : alookup v.voter e.validator_set with
    | none => rw [h] at hval; simp at hval
    | some info => exact ⟨info, rfl⟩
  obtain ⟨info, hinfo⟩ := hinfo
  simp [receive_vote, hval, verify_signature, hinfo, hsig, hnone]

/-- C10 (witness): the no-op theorem applied to a concrete engine with active
validator 7 and no stored proposals, receiving 7's approve-vote on the unknown
proposal 99. -/
theorem receive_vote_unknown_proposal_noop_witness :
    receive_vote (fun _ => true) 0
        ⟨[(7, ⟨0, 1000, true⟩)], none, ProposalStore.empty, [], 0, 0, [], []⟩
        ⟨99, 7, true, 0, 0, 0⟩ =
      .ok ⟨[(7, ⟨0, 1000, true⟩)], none, ProposalStore.empty, [], 0, 0, [], []⟩ :=
  receive_vote_unknown_proposal_noop (fun _ => true) 0
    ⟨[(7, ⟨0, 1000, true⟩)], none, ProposalStore.empty, [], 0, 0, [], []⟩
    ⟨99, 7, true, 0, 0, 0⟩ (by decide) rfl (by decide)

/-- Single-validator set of the C6 scenario. -/
def c6vset : List (Nat × ValidatorInfo) := [(7, ⟨0, 1000, true⟩)]

/-- Fresh observer engine of the C6 scenario (not itself a validator, so no
auto-vote interferes). -/
def c6e0 : Engine := ⟨c6vset, none, ProposalStore.empty, [], 0, 0, [], []⟩

/-- First proposal at state_version 1. -/
def c6p1 : Proposal := ⟨101, 7, 1, 0, 11, [], 0, 0⟩

/-- Second, competing proposal at the same state_version 1. -/
def c6p2 : Proposal := ⟨102, 7, 1, 0, 12, [], 0, 0⟩

/-- Validator 7's approve-vote on the first proposal. -/
def c6v1 : Vote := ⟨101, 7, true, 0, 0, 0⟩

/-- Validator 7's approve-vote on the second proposal. -/
def c6v2 : Vote := ⟨102, 7, true, 0, 0, 0⟩

/-- Admit both proposals (both pass the version check against
finalized_version 0), then finalize the first via its quorum vote. -/
def c6mid : Except Relyo.Err Engine :=
  (receive_proposal (fun _ => true) (fun _ => true) 0 c6e0 c6p1 []).bind fun e1 =>
    (receive_proposal (fun _ => true) (fun _ => true) 0 e1 c6p2 []).bind fun e2 =>
      receive_vote (fun _ => true) 0 e2 c6v1

/-- The same run continued with the quorum vote on the second proposal. -/
def c6run : Except Relyo.Err Engine :=
  c6mid.bind fun e3 => receive_vote (fun _ => true) 0 e3 c6v2

/-- C6 (counterexample): with a one-validator set (required_votes = 1), two
proposals admitted at state_version 1 both reach quorum.  After the first
certificate finalized_version is 1; the second certificate is appended with
state_version 1 and leaves finalized_version at 1 — the log holds certificates
numbered 1 and 2 with versions [1, 1], so finalized_version is not strictly
increasing and the second certificate advances it by 0, not 1. -/
theorem finalized_version_not_strictly_increasing :
    c6mid.map (fun e => (e.certificates.length, e.finalized_version)) = .ok (1, 1) ∧
    c6run.map (fun e => (e.certificates.length, e.finalized_version)) = .ok (2, 1) ∧
    c6run.map (fun e => e.certificates.map (fun c => c.state_version)) = .ok [1, 1] := by
  exact ⟨by decide, by decide, by decide⟩

end Consensus

namespace Consensus

/-- C6 (amended): appending a certificate sets finalized_version to the
certificate's state_version, which is the state_version carried by its stored
proposal — the finalized_version at that proposal's admission plus 1 — and a
receive_vote that appends no certificate leaves finalized_version unchanged;
receive_proposal admits only proposals at exactly finalized_version + 1.
finalized_version therefore advances by exactly 1 per certificate whenever each
finalized proposal was admitted at the current finalized_version, but it is not
strictly increasing over arbitrary operation sequences (two proposals admitted
at the same version can both finalize). -/
theorem certificate_append_sets_version (sigOkV : Vote → Bool) (sigOkP : Proposal → Bool)
    (now : Nat) (e : Engine) :
    (∀ v e1, receive_vote sigOkV now e v = .ok e1 →
      (e1.certificates = e.certificates ∧ e1.finalized_version = e.finalized_version) ∨
      (∃ cert, e1.certificates = e.certificates ++ [cert] ∧
        e1.finalized_version = cert.state_version ∧
        (ProposalStore.getP e.proposal_store v.proposal_id).map
          (fun p => p.state_version) = some cert.state_version)) ∧
    (∀ p changes e1, receive_proposal sigOkP sigOkV now e p changes = .ok e1 →
      p.state_version = e.finalized_version + 1) := by
  constructor
  · intro v e1 hok
    cases hval : is_validator e.validator_set v.voter with
    | false => simp [receive_vote, hval] at hok
    | true =>
      cases hsig : verify_signature e.validator_set v.voter (sigOkV v) with
      | error err => simp [receive_vote, hval, hsig] at hok
      | ok u =>
        cases hcol : alookup v.proposal_id e.vote_collections with
        | none =>
            simp [receive_vote, hval, hsig, hcol] at hok
            exact Or.inl ⟨by rw [← hok], by rw [← hok]⟩
        | some c =>
          cases hadd : (c.addVote v).2 with
          | false =>
              simp [receive_vote, hval, hsig, hcol, hadd] at hok
              exact Or.inl ⟨by rw [← hok], by rw [← hok]⟩
          | true =>
            cases hcons : (c.addVote v).1.has_consensus (required_votes e.validator_set) with
            | true =>
                cases hget : alookup v.proposal_id e.proposal_store.proposals with
                | none =>
                    simp [receive_vote, hval, hsig, hcol, hadd, hcons, finalize_proposal,
                      ProposalStore.getP, hget] at hok
                | some tp =>
                    simp [receive_vote, hval, hsig, hcol, hadd, hcons, finalize_proposal,
                      ProposalStore.getP, hget, alookup_upsert_self] at hok
                    refine Or.inr ⟨⟨v.proposal_id, tp.proposal.state_version,
                      tp.proposal.new_root, (c.addVote v).1.votes, now⟩, ?_, ?_, ?_⟩
                    · rw [← hok]
                    · rw [← hok]
                    · simp [ProposalStore.getP, hget]
            | false =>
              cases hrej : (c.addVote v).1.is_rejected (active_count e.validator_set)
                  (required_votes e.validator_set) with
              | true =>
                  simp [receive_vote, hval, hsig, hcol, hadd, hcons, hrej] at hok
                  exact Or.inl ⟨by rw [← hok], by rw [← hok]⟩
              | false =>
                  simp [receive_vote, hval, hsig, hcol, hadd, hcons, hrej] at hok
                  exact Or.inl ⟨by rw [← hok], by rw [← hok]⟩
  · intro p changes e1 hok
    cases hval : is_validator e.validator_set p.proposer with
    | false => simp [receive_proposal, hval] at hok
    | true =>
      cases hsig : verify_signature e.validator_set p.proposer (sigOkP p) with
      | error err => simp [receive_proposal, hval, hsig] at hok
      | ok u =>
        by_cases hver : p.state_version = e.finalized_version + 1
        · exact hver
        · simp [receive_proposal, hval, hsig, hver] at hok

end Consensus

namespace Consensus

/-- C6 (witness): the version characterization applied at the admission of the
concrete proposal c6p1 into the fresh engine c6e0. -/
theorem certificate_append_sets_version_witness :
    c6p1.state_version = c6e0.finalized_version + 1 :=
  (certificate_append_sets_version (fun _ => true) (fun _ => true) 0 c6e0).2 c6p1 []
    ⟨c6vset, none, ⟨[(101, TrackedProposal.init c6p1 [])], [(1, 101)]⟩,
      [(101, VoteCollection.empty)], 0, 0, [], [.ProposalReceived 101]⟩ (by decide)

/-- The invariant a vote collection maintains: the counters count the approve
and reject votes, voters are distinct, and every recorded voter was an active
validator when recorded. -/
def collection_invariant (vs : List (Nat × ValidatorInfo)) (c : VoteCollection) : Prop :=
  c.votes_for = (c.votes.filter (fun v => v.approve)).length ∧
  c.votes_against = (c.votes.filter (fun v => !v.approve)).length ∧
  (c.votes.map (fun v => v.voter)).Nodup ∧
  ∀ v ∈ c.votes, is_validator vs v.voter = true

/-- Certificate soundness: at least required_votes approve-votes, from distinct
voters, all of them active validators. -/
def certificate_sound (vs : List (Nat × ValidatorInfo)) (cert : FinalityCertificate) : Prop :=
  required_votes vs ≤ (cert.votes.filter (fun v => v.approve)).length ∧
  (cert.votes.map (fun v => v.voter)).Nodup ∧
  ∀ v ∈ cert.votes, is_validator vs v.voter = true

/-- The engine invariant: every vote collection satisfies its invariant and
every logged certificate is sound, both against the engine's validator set. -/
def EngineInv (e : Engine) : Prop :=
  (∀ pid c, alookup pid e.vote_collections = some c →
    collection_invariant e.validator_set c) ∧
  (∀ cert ∈ e.certificates, certificate_sound e.validator_set cert)

theorem empty_collection_invariant (vs : List (Nat × ValidatorInfo)) :
    collection_invariant vs VoteCollection.empty := by
  refine ⟨rfl, rfl, List.nodup_nil, ?_⟩
  intro v hv
  simp [VoteCollection.empty] at hv

theorem addVote_invariant (vs : List (Nat × ValidatorInfo)) (c : VoteCollection) (v : Vote)
    (hc : collection_invariant vs c) (hval : is_validator vs v.voter = true)
    (hadd : (c.addVote v).2 = true) :
    collection_invariant vs (c.addVote v).1 := by
  obtain ⟨h1, h2, h3, h4⟩ := hc
  by_cases hdup : c.votes.any (fun w => w.voter == v.voter)
  · simp [VoteCollection.addVote, hdup] at hadd
  · have hnotin : v.voter ∉ c.votes.map (fun w => w.voter) := by
      intro hmem
      obtain ⟨w, hw, hweq⟩ := List.mem_map.mp hmem
      exact hdup (List.any_eq_true.mpr ⟨w, hw, by simp [hweq]⟩)
    refine ⟨?_, ?_, ?_, ?_⟩
    · cases happ : v.approve <;>
        simp [VoteCollection.addVote, hdup, happ, List.filter_append, h1]
    · cases happ : v.approve <;>
        simp [VoteCollection.addVote, hdup, happ, List.filter_append, h2]
    · simp only [VoteCollection.addVote, hdup]
      simp [List.nodup_append, h3, hnotin]
    · intro w hw
      simp only [VoteCollection.addVote, hdup] at hw
      simp at hw
      rcases hw with hw | hw
      · exact h4 w hw
      · rw [hw]; exact hval

theorem receive_vote_invariant (sigOkV : Vote → Bool) (now : Nat) (e : Engine) (v : Vote)
    (e1 : Engine) (hok : receive_vote sigOkV now e v = .ok e1) (hinv : EngineInv e) :
    EngineInv e1 ∧ e1.validator_set = e.validator_set := by
  cases hval : is_validator e.validator_set v.voter with
  | false => simp [receive_vote, hval] at hok
  | true =>
    cases hsig : verify_signature e.validator_set v.voter (sigOkV v) with
    | error err => simp [receive_vote, hval, hsig] at hok
    | ok u =>
      cases hcol : alookup v.proposal_id e.vote_collections with
      | none =>
          simp [receive_vote, hval, hsig, hcol] at hok
          rw [← hok]
          exact ⟨hinv, rfl⟩
      | some c =>
        have hcinv : collection_invariant e.validator_set c := hinv.1 _ _ hcol
        cases hadd : (c.addVote v).2 with
        | false =>
            simp [receive_vote, hval, hsig, hcol, hadd] at hok
            rw [← hok]
            exact ⟨hinv, rfl⟩
        | true =>
          have hnewinv : collection_invariant e.validator_set (c.addVote v).1 :=
            addVote_invariant _ _ _ hcinv hval hadd
          have hcolls : ∀ pid c2,
              alookup pid (upsert v.proposal_id (c.addVote v).1 e.vote_collections) = some c2 →
              collection_invariant e.validator_set c2 := by
            intro pid c2 hlk
            by_cases hpid : pid = v.proposal_id
            · subst hpid
              rw [alookup_upsert_self] at hlk
              rw [← Option.some.inj hlk]
              exact hnewinv
            · rw [alookup_upsert_ne v.proposal_id pid _ hpid] at hlk
              exact hinv.1 pid c2 hlk
          cases hcons : (c.addVote v).1.has_consensus (required_votes e.validator_set) with
          | true =>
              cases hget : alookup v.proposal_id e.proposal_store.proposals with
              | none =>
                  simp [receive_vote, hval, hsig, hcol, hadd, hcons, finalize_proposal,
                    ProposalStore.getP, hget] at hok
              | some tp =>
                  simp [receive_vote, hval, hsig, hcol, hadd, hcons, finalize_proposal,
                    ProposalStore.getP, hget, alookup_upsert_self] at hok
                  rw [← hok]
                  refine ⟨⟨hcolls, ?_⟩, rfl⟩
                  intro cert hcert
                  simp at hcert
                  rcases hcert with hcert | hcert
                  · exact hinv.2 cert hcert
                  · rw [hcert]
                    refine ⟨?_, hnewinv.2.2.1, hnewinv.2.2.2⟩
                    have hq : required_votes e.validator_set ≤ (c.addVote v).1.votes_for := by
                      simpa [VoteCollection.has_consensus] using hcons
                    have hfor := hnewinv.1
                    rw [← hfor]
                    exact hq
          | false =>
            cases hrej : (c.addVote v).1.is_rejected (active_count e.validator_set)
                (required_votes e.validator_set) with
            | true =>
                simp [receive_vote, hval, hsig, hcol, hadd, hcons, hrej] at hok
                rw [← hok]
                exact ⟨⟨hcolls, fun cert hcert => hinv.2 cert hcert⟩, rfl⟩
            | false =>
                simp [receive_vote, hval, hsig, hcol, hadd, hcons, hrej] at hok
                rw [← hok]
                exact ⟨⟨hcolls, fun cert hcert => hinv.2 cert hcert⟩, rfl⟩

theorem create_proposal_invariant (now pid : Nat) (e : Engine)
    (previous_root new_root changes_hash : Nat) (tx_ids : List Nat)
    (changes : List StateChange) (e1 : Engine) (p : Proposal)
    (hok : create_proposal now pid e previous_root new_root tx_ids changes_hash changes =
      .ok (e1, p))
    (hinv : EngineInv e) : EngineInv e1 ∧ e1.validator_set = e.validator_set := by
  cases hloc : e.local_validator with
  | none => simp [create_proposal, hloc] at hok
  | some localId =>
      simp [create_proposal, hloc] at hok
      obtain ⟨hok1, hok2⟩ := hok
      rw [← hok1]
      refine ⟨⟨?_, fun cert hcert => hinv.2 cert hcert⟩, rfl⟩
      intro pid2 c2 hlk
      by_cases hpid : pid2 = pid
      · subst hpid
        rw [alookup_upsert_self] at hlk
        rw [← Option.some.inj hlk]
        exact empty_collection_invariant _
      · rw [alookup_upsert_ne pid pid2 _ hpid] at hlk
        exact hinv.1 pid2 c2 hlk

theorem vote_on_proposal_invariant (sigOkV : Vote → Bool) (now : Nat) (e : Engine)
    (pid : Nat) (approve : Bool) (e1 : Engine) (v : Vote)
    (hok : vote_on_proposal sigOkV now e pid approve = .ok (e1, v))
    (hinv : EngineInv e) : EngineInv e1 ∧ e1.validator_set = e.validator_set := by
  cases hloc : e.local_validator with
  | none => simp [vote_on_proposal, hloc] at hok
  | some localId =>
    cases hget : ProposalStore.getP e.proposal_store pid with
    | none => simp [vote_on_proposal, hloc, hget] at hok
    | some p0 =>
      cases hrc : receive_vote sigOkV now e
          ⟨pid, localId, approve, e.finalized_version, e.finalized_root, now⟩ with
      | error err => simp [vote_on_proposal, hloc, hget, hrc] at hok
      | ok e2 =>
        simp [vote_on_proposal, hloc, hget, hrc] at hok
        obtain ⟨hok1, hok2⟩ := hok
        rw [← hok1]
        exact receive_vote_invariant sigOkV now e _ e2 hrc hinv

theorem receive_proposal_invariant (sigOkP : Proposal → Bool) (sigOkV : Vote → Bool)
    (now : Nat) (e : Engine) (p : Proposal) (changes : List StateChange) (e1 : Engine)
    (hok : receive_proposal sigOkP sigOkV now e p changes = .ok e1)
    (hinv : EngineInv e) : EngineInv e1 ∧ e1.validator_set = e.validator_set := by
  cases hval : is_validator e.validator_set p.proposer with
  | false => simp [receive_proposal, hval] at hok
  | true =>
    cases hsig : verify_signature e.validator_set p.proposer (sigOkP p) with
    | error err => simp [receive_proposal, hval, hsig] at hok
    | ok u =>
      by_cases hver : p.state_version = e.finalized_version + 1
      · have hinv1 : EngineInv
            { e with
              proposal_store := e.proposal_store.addP p changes,
              vote_collections := upsert p.id VoteCollection.empty e.vote_collections,
              events := e.events ++ [.ProposalReceived p.id] } := by
          refine ⟨?_, fun cert hcert => hinv.2 cert hcert⟩
          intro pid2 c2 hlk
          simp only [] at hlk
          by_cases hpid : pid2 = p.id
          · subst hpid
            rw [alookup_upsert_self] at hlk
            rw [← Option.some.inj hlk]
            exact empty_collection_invariant _
          · rw [alookup_upsert_ne p.id pid2 _ hpid] at hlk
            exact hinv.1 pid2 c2 hlk
        cases hloc : e.local_validator with
        | none =>
            simp [receive_proposal, hval, hsig, hver, hloc] at hok
            rw [← hok]
            exact ⟨by simpa [hloc] using hinv1, rfl⟩
        | some localId =>
            cases hvp : vote_on_proposal sigOkV now
                { e with
                  proposal_store := e.proposal_store.addP p changes,
                  vote_collections := upsert p.id VoteCollection.empty e.vote_collections,
                  events := e.events ++ [.ProposalReceived p.id] } p.id true with
            | error err =>
                simp [receive_proposal, hval, hsig, hver, hloc] at hok
                rw [hloc] at hvp
                rw [hvp] at hok
                simp at hok
            | ok r =>
                simp [receive_proposal, hval, hsig, hver, hloc] at hok
                rw [hloc] at hvp
                rw [hvp] at hok
                simp at hok
                rw [← hok]
                have := vote_on_proposal_invariant sigOkV now _ p.id true r.1 r.2
                  (by rw [hloc, hvp]) hinv1
                exact ⟨this.1, this.2⟩
      · simp [receive_proposal, hval, hsig, hver] at hok

/-- ProposalStore::cleanup (proposal.rs lines 259-274): drop every tracked
proposal with version below the bound, from both indexes. -/
def ProposalStore.cleanupP (ps : ProposalStore) (before : Nat) : ProposalStore :=
  { proposals := (ps.by_version.filter (fun kv => kv.1 < before)).foldl
      (fun acc kv => eraseKey kv.2 acc) ps.proposals,
    by_version := ps.by_version.filter (fun kv => ¬ kv.1 < before) }

/-- RainsonetConsensus::cleanup (engine.rs lines 319-326). -/
def cleanup (e : Engine) : Engine :=
  if e.finalized_version > 10 then
    { e with proposal_store := e.proposal_store.cleanupP (e.finalized_version - 10) }
  else e

theorem cleanup_invariant (e : Engine) (hinv : EngineInv e) :
    EngineInv (cleanup e) ∧ (cleanup e).validator_set = e.validator_set := by
  unfold cleanup
  by_cases h : e.finalized_version > 10 <;> simp [h] <;> exact ⟨hinv.1, hinv.2⟩

/-- The engine states reachable through the modelled operations, for fixed
signature-verification outcomes: a fresh engine, receive_vote, receive_proposal,
create_proposal, vote_on_proposal and cleanup. -/
inductive Reachable (sigOkV : Vote → Bool) (sigOkP : Proposal → Bool) : Engine → Prop where
  | init (vs : List (Nat × ValidatorInfo)) (localv : Option Nat) :
      Reachable sigOkV sigOkP ⟨vs, localv, ProposalStore.empty, [], 0, 0, [], []⟩
  | vote {e e1 : Engine} (now : Nat) (v : Vote) :
      Reachable sigOkV sigOkP e → receive_vote sigOkV now e v = .ok e1 →
      Reachable sigOkV sigOkP e1
  | proposal {e e1 : Engine} (now : Nat) (p : Proposal) (changes : List StateChange) :
      Reachable sigOkV sigOkP e → receive_proposal sigOkP sigOkV now e p changes = .ok e1 →
      Reachable sigOkV sigOkP e1
  | create {e e1 : Engine} (now pid previous_root new_root changes_hash : Nat)
      (tx_ids : List Nat) (changes : List StateChange) (p : Proposal) :
      Reachable sigOkV sigOkP e →
      create_proposal now pid e previous_root new_root tx_ids changes_hash changes =
        .ok (e1, p) →
      Reachable sigOkV sigOkP e1
  | voteOn {e e1 : Engine} (now pid : Nat) (approve : Bool) (v : Vote) :
      Reachable sigOkV sigOkP e → vote_on_proposal sigOkV now e pid approve = .ok (e1, v) →
      Reachable sigOkV sigOkP e1
  | clean {e : Engine} :
      Reachable sigOkV sigOkP e → Reachable sigOkV sigOkP (cleanup e)

theorem reachable_invariant (sigOkV : Vote → Bool) (sigOkP : Proposal → Bool)
    (e : Engine) (hreach : Reachable sigOkV sigOkP e) : EngineInv e := by
  induction hreach with
  | init vs localv =>
      constructor
      · intro pid c hlk
        simp [alookup] at hlk
      · intro cert hcert
        simp at hcert
  | vote now v hr hok ih => exact (receive_vote_invariant _ now _ v _ hok ih).1
  | proposal now p changes hr hok ih =>
      exact (receive_proposal_invariant _ _ now _ p changes _ hok ih).1
  | create now pid pr nr ch tx cs p hr hok ih =>
      exact (create_proposal_invariant now pid _ pr nr ch tx cs _ p hok ih).1
  | voteOn now pid approve v hr hok ih =>
      exact (vote_on_proposal_invariant _ now _ pid approve _ v hok ih).1
  | clean hr ih => exact (cleanup_invariant _ ih).1

/-- C3: over every reachable engine state, (1) every FinalityCertificate in the
log contains at least required_votes = active_count * 2 / 3 + 1 approve-votes
from distinct active validators, and (2) a successful receive_vote appends a
certificate (finalizing the proposal) exactly when the vote is newly counted
and the resulting approve-count reaches the quorum threshold, and emits
ProposalRejected exactly when the vote is newly counted, quorum is not reached,
and the against-count exceeds active_count − required_votes. -/
theorem receive_vote_quorum_certificates (sigOkV : Vote → Bool) (sigOkP : Proposal → Bool)
    (e : Engine) (hreach : Reachable sigOkV sigOkP e) :
    (∀ cert ∈ e.certificates,
      required_votes e.validator_set ≤ (cert.votes.filter (fun v => v.approve)).length ∧
      (cert.votes.map (fun v => v.voter)).Nodup ∧
      ∀ v ∈ cert.votes, is_validator e.validator_set v.voter = true) ∧
    (∀ now v e1, receive_vote sigOkV now e v = .ok e1 →
      (alookup v.proposal_id e.vote_collections = none → e1 = e) ∧
      (∀ c, alookup v.proposal_id e.vote_collections = some c →
        (((c.addVote v).2 = true ∧
            required_votes e.validator_set ≤ ((c.addVote v).1).votes_for) →
          ∃ cert, e1.certificates = e.certificates ++ [cert] ∧
            cert.proposal_id = v.proposal_id ∧
            cert.votes = ((c.addVote v).1).votes) ∧
        (¬ ((c.addVote v).2 = true ∧
            required_votes e.validator_set ≤ ((c.addVote v).1).votes_for) →
          e1.certificates = e.certificates) ∧
        (e1.events = e.events ++ [.VoteCast v.proposal_id v.voter v.approve,
            .ProposalRejected v.proposal_id] ↔
          ((c.addVote v).2 = true ∧
            ((c.addVote v).1).votes_for < required_votes e.validator_set ∧
            active_count e.validator_set - required_votes e.validator_set <
              ((c.addVote v).1).votes_against)))) := by
  have hinv := reachable_invariant sigOkV sigOkP e hreach
  refine ⟨fun cert hcert => hinv.2 cert hcert, ?_⟩
  intro now v e1 hok
  cases hval : is_validator e.validator_set v.voter with
  | false => simp [receive_vote, hval] at hok
  | true =>
    cases hsig : verify_signature e.validator_set v.voter (sigOkV v) with
    | error err => simp [receive_vote, hval, hsig] at hok
    | ok u =>
      cases hcol : alookup v.proposal_id e.vote_collections with
      | none =>
          simp [receive_vote, hval, hsig, hcol] at hok
          refine ⟨fun _ => hok.symm, ?_⟩
          intro c hc
          simp at hc
      | some c0 =>
        refine ⟨fun hnone => by simp at hnone, ?_⟩
        intro c hc
        obtain rfl : c0 = c := Option.some.inj hc
        cases hadd : (c0.addVote v).2 with
        | false =>
            simp [receive_vote, hval, hsig, hcol, hadd] at hok
            refine ⟨?_, fun _ => by rw [← hok], ?_⟩
            · rintro ⟨h1, -⟩
              simp [hadd] at h1
            · rw [← hok]
              simp [hadd]
        | true =>
          cases hcons : (c0.addVote v).1.has_consensus (required_votes e.validator_set) with
          | true =>
              have hreq : required_votes e.validator_set ≤ (c0.addVote v).1.votes_for := by
                simpa [VoteCollection.has_consensus] using hcons
              cases hget : alookup v.proposal_id e.proposal_store.proposals with
              | none =>
                  simp [receive_vote, hval, hsig, hcol, hadd, hcons, finalize_proposal,
                    ProposalStore.getP, hget] at hok
              | some tp =>
                  simp [receive_vote, hval, hsig, hcol, hadd, hcons, finalize_proposal,
                    ProposalStore.getP, hget, alookup_upsert_self] at hok
                  refine ⟨?_, ?_, ?_⟩
                  · intro _
                    exact ⟨⟨v.proposal_id, tp.proposal.state_version, tp.proposal.new_root,
                      (c0.addVote v).1.votes, now⟩, by rw [← hok], rfl, rfl⟩
                  · intro hnot
                    exact absurd ⟨rfl, hreq⟩ hnot
                  · rw [← hok]
                    constructor
                    · intro h
                      exfalso
                      have h2 := List.append_cancel_left h
                      simp at h2
                    · rintro ⟨-, hlt, -⟩
                      omega
          | false =>
            have hnreq : ¬ required_votes e.validator_set ≤ (c0.addVote v).1.votes_for := by
              simpa [VoteCollection.has_consensus] using hcons
            cases hrej : (c0.addVote v).1.is_rejected (active_count e.validator_set)
                (required_votes e.validator_set) with
            | true =>
                simp [receive_vote, hval, hsig, hcol, hadd, hcons, hrej] at hok
                refine ⟨?_, fun _ => by rw [← hok], ?_⟩
                · rintro ⟨-, hreq⟩
                  exact absurd hreq hnreq
                · rw [← hok]
                  constructor
                  · intro _
                    refine ⟨rfl, Nat.lt_of_not_le hnreq, ?_⟩
                    simpa [VoteCollection.is_rejected] using hrej
                  · intro _
                    simp
            | false =>
                simp [receive_vote, hval, hsig, hcol, hadd, hcons, hrej] at hok
                refine ⟨?_, fun _ => by rw [← hok], ?_⟩
                · rintro ⟨-, hreq⟩
                  exact absurd hreq hnreq
                · rw [← hok]
                  constructor
                  · intro h
                    exfalso
                    have h2 := List.append_cancel_left h
                    simp at h2
                  · rintro ⟨-, -, hagainst⟩
                    exact absurd hagainst (by simpa [VoteCollection.is_rejected] using hrej)

/-- Engine state of the C3 witness run after admitting proposal c6p1. -/
def c3e1 : Engine :=
  ⟨c6vset, none, ⟨[(101, TrackedProposal.init c6p1 [])], [(1, 101)]⟩,
    [(101, VoteCollection.empty)], 0, 0, [], [.ProposalReceived 101]⟩

/-- Certificate produced by the C3 witness run. -/
def c3cert : FinalityCertificate := ⟨101, 1, 11, [c6v1], 0⟩

/-- Engine state of the C3 witness run after the finalizing vote c6v1. -/
def c3e2 : Engine :=
  ⟨c6vset, none, ⟨[(101, TrackedProposal.init c6p1 [])], [(1, 101)]⟩,
    [(101, ⟨[c6v1], 1, 0⟩)], 1, 11, [c3cert],
    [.ProposalReceived 101, .VoteCast 101 7 true, .StateFinalized 1 11 c3cert]⟩

/-- C3 (witness): the quorum characterization applied to the concrete
single-validator run — admitting c6p1 and receiving the quorum vote c6v1
appends exactly one certificate carrying that vote. -/
theorem receive_vote_quorum_certificates_witness :
    ∃ cert : FinalityCertificate, c3e2.certificates = c3e1.certificates ++ [cert] ∧
      cert.proposal_id = c6v1.proposal_id ∧
      cert.votes = (VoteCollection.empty.addVote c6v1).1.votes := by
  have hreach : Reachable (fun _ => true) (fun _ => true) c3e1 :=
    Reachable.proposal 0 c6p1 [] (Reachable.init c6vset none) (by decide)
  have h := (receive_vote_quorum_certificates (fun _ => true) (fun _ => true) c3e1 hreach).2
    0 c6v1 c3e2 (by decide)
  exact (h.2 VoteCollection.empty (by decide)).1 ⟨by decide, by decide⟩

end Consensus

namespace NodeRuntime

/-- The RelyoConfig fields the runtime path consumes. -/
structure RtConfig where
  min_fee : Nat
  max_tx_amount : Nat
  tx_expiry_seconds : Nat
  fee_burn_percent : Nat
deriving DecidableEq, Repr

/-- NodeRuntime (node/runtime.rs): the ledger (whose committed map is the
shared in-memory KV store's account entries), the mempool, the consensus
engine, the store's version counter and the runtime's cached version/root. -/
structure Runtime where
  config_is_validator : Bool
  cfg : RtConfig
  ledger : Relyo.LedgerState
  store_version : Nat
  mempool : Relyo.Mempool
  consensus : Consensus.Engine
  state_version : Nat
  state_root : Nat
deriving DecidableEq, Repr

/-- RelyoTransactionValidator::validate (relyo/validator.rs lines 100-135):
structural checks (amount cap, minimum fee, expiry against now), the signature
check (elided: the submitted value is a VerifiedTransaction, which carries a
checked signature), then nonce and balance against the COMMITTED store only
(missing account defaults to (0, 0)). -/
def validate (cfg : RtConfig) (now : Nat) (st_committed : List (Nat × Relyo.Account))
    (tx : Relyo.Tx) : Except Relyo.Err Unit :=
  if tx.amount > cfg.max_tx_amount then .error .InvalidTransaction
  else if tx.fee < cfg.min_fee then .error (.FeeTooLow cfg.min_fee tx.fee)
  else if now - tx.timestamp > cfg.tx_expiry_seconds * 1000 then .error .TransactionExpired
  else
    let sender := match alookup tx.fromAddr st_committed with
      | some a => a
      | none => Relyo.Account.zero
    if tx.nonce ≠ sender.nonce then .error (.InvalidNonce sender.nonce tx.nonce)
    else if sender.balance < tx.total_cost then
      .error (.InsufficientBalance tx.total_cost sender.balance)
    else .ok ()

/-- Injective encoding of one account state-change as the engine's StateChange
(standing for Set {key: "account:" || addr, value: bincode(AccountState)}). -/
def encodeChange (p : Nat × Relyo.Account) : Consensus.StateChange :=
  .Set [p.1] [p.2.balance, p.2.nonce]

/-- NodeRuntime::try_propose_block (node/runtime.rs lines 183-248): extract up
to 100 executable transactions (groups is their by-sender partition in HashMap
order), execute each in the ledger — evicting failed ids from the mempool and
continuing — then hash the collected changes (hchanges stands for
BLAKE3(bincode(all_changes)), which is both the proposal's new_root and its
changes_hash in the source), create a proposal (pid is its BLAKE3 id), apply
the batch to the store, commit the ledger's pending buffer and drop the
included ids from the mempool.  The runtime state is returned alongside the
outcome, so partial mutation before an error is visible. -/
def try_propose_block (groups : List (List Relyo.VTx)) (hchanges pid now : Nat)
    (rt : Runtime) : Runtime × Except Relyo.Err Unit :=
  let txs := Relyo.get_executable groups 100
  if txs = [] then (rt, .ok ())
  else
    let step := txs.foldl
      (fun (acc : Relyo.LedgerState × Relyo.Mempool × List (Nat × Relyo.Account) × List Nat)
          vtx =>
        let r := Relyo.execute_transaction rt.cfg.fee_burn_percent acc.1 vtx.tx
        match r.2 with
        | .ok cs => (r.1, acc.2.1, acc.2.2.1 ++ cs, acc.2.2.2 ++ [vtx.tx_id])
        | .error _ => (r.1, (acc.2.1.remove vtx.tx_id).1, acc.2.2.1, acc.2.2.2))
      (rt.ledger, rt.mempool, [], [])
    let rtL := { rt with ledger := step.1, mempool := step.2.1 }
    if step.2.2.1 = [] then (rtL, .ok ())
    else
      match Consensus.create_proposal now pid rtL.consensus rt.state_root hchanges
          step.2.2.2 hchanges (step.2.2.1.map encodeChange) with
      | .error err => (rtL, .error err)
      | .ok r =>
          let committed1 := step.2.2.1.foldl (fun acc ch => upsert ch.1 ch.2 acc)
            step.1.committed
          let committed2 := step.1.pending.foldl (fun acc pa => upsert pa.1 pa.2 acc)
            committed1
          let mp2 := step.2.2.2.foldl (fun m id => (Relyo.Mempool.remove m id).1) step.2.1
          ({ rt with
              ledger := ⟨committed2, [], step.1.burned⟩,
              mempool := mp2,
              consensus := r.1,
              store_version := rt.store_version + 1,
              state_version := rt.store_version + 1,
              state_root := hchanges },
           .ok ())

/-- NodeRuntime::submit_transaction (node/runtime.rs lines 156-180): validate
against committed state, admit to the mempool (a false from add surfaces as
InvalidTransaction), then — when the node is a validator — attempt to propose.
The runtime state is returned alongside the outcome. -/
def submit_transaction (groups : List (List Relyo.VTx)) (hchanges pid now : Nat)
    (rt : Runtime) (vtx : Relyo.VTx) : Runtime × Except Relyo.Err Nat :=
  match validate rt.cfg now rt.ledger.committed vtx.tx with
  | .error e => (rt, .error e)
  | .ok _ =>
      let r := rt.mempool.add now vtx
      let rt1 := { rt with mempool := r.1 }
      if r.2 = false then (rt1, .error .InvalidTransaction)
      else if rt.config_is_validator then
        let r2 := try_propose_block groups hchanges pid now rt1
        match r2.2 with
        | .error e2 => (r2.1, .error e2)
        | .ok _ => (r2.1, .ok vtx.tx_id)
      else (rt1, .ok vtx.tx_id)

/-- Mempool of the C9 scenario: capacity 2 (full), one transaction per sender
allowed; holds tx 10 (sender 1, fee 1) and tx 11 (sender 2, fee 5). -/
def c9mempool : Relyo.Mempool :=
  ⟨[(10, ⟨⟨⟨1, 9, 0, 1, 0, 0⟩, 10⟩, 0, 1⟩), (11, ⟨⟨⟨2, 9, 0, 5, 0, 0⟩, 11⟩, 0, 5⟩)],
   [(1, [10]), (2, [11])],
   [((1, 10), 10), ((5, 11), 11)], 2, 1⟩

/-- Non-validator runtime of the C9 scenario; sender 2 holds a committed
balance of 100 at nonce 0. -/
def c9rt : Runtime :=
  ⟨false, ⟨0, 1000000, 3600, 0⟩, ⟨[(2, ⟨100, 0⟩)], [], 0⟩, 0, c9mempool,
    ⟨[], none, Consensus.ProposalStore.empty, [], 0, 0, [], []⟩, 0, 0⟩

/-- C9: evaluation of submit_transaction at a concrete verified transaction
(sender 2, amount 1, fee 3, nonce 0 — it passes validation) against a
non-validator runtime whose mempool is at capacity with sender 2 already at the
per-sender limit.  Mempool::add first evicts the lowest-priority entry (tx 10)
and only then rejects on the per-sender limit, so submit_transaction returns an
error while the mempool has lost tx 10: the failed call does NOT leave the
mempool as it was.  (In the shipped code this same path also re-acquires the
transactions lock already held by add; the evaluation is the lock-erased
sequential semantics.) -/
theorem submit_transaction_error_after_eviction_eval :
    (submit_transaction [] 0 0 0 c9rt ⟨⟨2, 9, 1, 3, 0, 0⟩, 12⟩).2 =
        .error .InvalidTransaction ∧
    alookup 10 c9rt.mempool.transactions = some ⟨⟨⟨1, 9, 0, 1, 0, 0⟩, 10⟩, 0, 1⟩ ∧
    alookup 10 (submit_transaction [] 0 0 0 c9rt
        ⟨⟨2, 9, 1, 3, 0, 0⟩, 12⟩).1.mempool.transactions = none ∧
    (submit_transaction [] 0 0 0 c9rt ⟨⟨2, 9, 1, 3, 0, 0⟩, 12⟩).1.mempool ≠ c9rt.mempool := by
  exact ⟨by decide, by decide, by decide, by decide⟩

end NodeRuntime

namespace Relyo

theorem remove_preserves_limits (m : Mempool) (id : Nat) :
    ((m.remove id).1).max_size = m.max_size ∧
    ((m.remove id).1).max_per_sender = m.max_per_sender := by
  unfold Mempool.remove
  cases h : alookup id m.transactions <;> simp

/-- C4 (amended): when the mempool holds max_size entries, add of a new
non-duplicate transaction evicts the entry with the least (priority, tx_id)
key REGARDLESS of how the new transaction's priority compares to the current
minimum — the code performs no priority comparison — and then inserts the new
transaction, unless the sender is at the per-sender limit on the post-eviction
pool, in which case add returns false with the eviction already applied. -/
theorem mempool_add_at_capacity (m : Mempool) (now : Nat) (vtx : VTx)
    (p0 id0 idv : Nat)
    (hfull : m.max_size ≤ m.transactions.length)
    (hnew : alookup vtx.tx_id m.transactions = none)
    (hhead : m.by_priority.head? = some ((p0, id0), idv)) :
    ((((alookup vtx.tx.fromAddr ((m.remove id0).1).by_sender).getD []).length <
        m.max_per_sender →
      m.add now vtx =
        ({ (m.remove id0).1 with
            transactions := upsert vtx.tx_id ⟨vtx, now, vtx.tx.fee % U64MOD⟩
              ((m.remove id0).1).transactions,
            by_sender := upsert vtx.tx.fromAddr
              (setInsert vtx.tx_id
                ((alookup vtx.tx.fromAddr ((m.remove id0).1).by_sender).getD []))
              ((m.remove id0).1).by_sender,
            by_priority := prioInsert (vtx.tx.fee % U64MOD, vtx.tx_id) vtx.tx_id
              ((m.remove id0).1).by_priority }, true)) ∧
    (m.max_per_sender ≤
        ((alookup vtx.tx.fromAddr ((m.remove id0).1).by_sender).getD []).length →
      m.add now vtx = ((m.remove id0).1, false))) := by
  have hlim := remove_preserves_limits m id0
  constructor
  · intro hps
    have hnps : ¬ ((m.remove id0).1).max_per_sender ≤
        ((alookup vtx.tx.fromAddr ((m.remove id0).1).by_sender).getD []).length := by
      rw [hlim.2]; omega
    simp [Mempool.add, Mempool.evict_lowest_priority, hnew, hhead, hfull, hnps]
  · intro hps
    have hnps : ((m.remove id0).1).max_per_sender ≤
        ((alookup vtx.tx.fromAddr ((m.remove id0).1).by_sender).getD []).length := by
      rw [hlim.2]; omega
    simp [Mempool.add, Mempool.evict_lowest_priority, hnew, hhead, hfull, hnps]

/-- C4 (witness): the amended behavior at a capacity-1 pool holding a fee-5
transaction, adding a fee-3 transaction from a different sender far below the
per-sender limit: the resident entry is evicted and the newcomer inserted. -/
theorem mempool_add_at_capacity_witness :
    (⟨[(10, ⟨⟨⟨1, 9, 0, 5, 0, 0⟩, 10⟩, 0, 5⟩)], [(1, [10])], [((5, 10), 10)], 1, 10⟩ :
        Mempool).add 0 ⟨⟨2, 9, 0, 3, 0, 0⟩, 20⟩ =
      ({ ((⟨[(10, ⟨⟨⟨1, 9, 0, 5, 0, 0⟩, 10⟩, 0, 5⟩)], [(1, [10])], [((5, 10), 10)], 1, 10⟩ :
            Mempool).remove 10).1 with
          transactions := upsert 20 ⟨⟨⟨2, 9, 0, 3, 0, 0⟩, 20⟩, 0, 3⟩
            (((⟨[(10, ⟨⟨⟨1, 9, 0, 5, 0, 0⟩, 10⟩, 0, 5⟩)], [(1, [10])], [((5, 10), 10)], 1, 10⟩ :
              Mempool).remove 10).1).transactions,
          by_sender := upsert 2 (setInsert 20 [])
            (((⟨[(10, ⟨⟨⟨1, 9, 0, 5, 0, 0⟩, 10⟩, 0, 5⟩)], [(1, [10])], [((5, 10), 10)], 1, 10⟩ :
              Mempool).remove 10).1).by_sender,
          by_priority := prioInsert (3, 20) 20
            (((⟨[(10, ⟨⟨⟨1, 9, 0, 5, 0, 0⟩, 10⟩, 0, 5⟩)], [(1, [10])], [((5, 10), 10)], 1, 10⟩ :
              Mempool).remove 10).1).by_priority }, true) := by
  have h := mempool_add_at_capacity
    ⟨[(10, ⟨⟨⟨1, 9, 0, 5, 0, 0⟩, 10⟩, 0, 5⟩)], [(1, [10])], [((5, 10), 10)], 1, 10⟩
    0 ⟨⟨2, 9, 0, 3, 0, 0⟩, 20⟩ 5 10 10 (by decide) (by decide) (by decide)
  exact h.1 (by decide)

end Relyo

namespace Relyo

theorem mempool_add_false_cases (m : Mempool) (now : Nat) (vtx : VTx)
    (hfalse : (m.add now vtx).2 = false) :
    (m.add now vtx).1 = m ∨
    ∃ p0 id0 idv, m.by_priority.head? = some ((p0, id0), idv) ∧
      (m.add now vtx).1 = (m.remove id0).1 := by
  by_cases hdup : (alookup vtx.tx_id m.transactions).isSome
  · left
    simp [Mempool.add, hdup]
  · by_cases hcap : m.transactions.length ≥ m.max_size
    · cases hhead : m.by_priority.head? with
      | none =>
          left
          simp [Mempool.add, Mempool.evict_lowest_priority, hdup, hcap, hhead]
      | some kv =>
          obtain ⟨⟨p0, id0⟩, idv⟩ := kv
          by_cases hps : ((alookup vtx.tx.fromAddr ((m.remove id0).1).by_sender).getD
              []).length ≥ ((m.remove id0).1).max_per_sender
          · right
            exact ⟨p0, id0, idv, rfl,
              by simp [Mempool.add, Mempool.evict_lowest_priority, hdup, hcap, hhead, hps]⟩
          · exfalso
            simp [Mempool.add, Mempool.evict_lowest_priority, hdup, hcap, hhead, hps]
              at hfalse
    · by_cases hps : ((alookup vtx.tx.fromAddr m.by_sender).getD []).length ≥
          m.max_per_sender
      · left
        simp [Mempool.add, hdup, hcap, hps]
      · exfalso
        simp [Mempool.add, hdup, hcap, hps] at hfalse

end Relyo

namespace NodeRuntime

theorem try_propose_block_no_error (groups : List (List Relyo.VTx))
    (hchanges pid now : Nat) (rt : Runtime)
    (hloc : rt.consensus.local_validator.isSome = true) :
    (try_propose_block groups hchanges pid now rt).2 = .ok () := by
  cases hl : rt.consensus.local_validator with
  | none => rw [hl] at hloc; simp at hloc
  | some lid =>
      by_cases htx : Relyo.get_executable groups 100 = []
      · simp [try_propose_block, htx]
      · by_cases hch : ((Relyo.get_executable groups 100).foldl
            (fun (acc : Relyo.LedgerState × Relyo.Mempool ×
                List (Nat × Relyo.Account) × List Nat) vtx =>
              let r := Relyo.execute_transaction rt.cfg.fee_burn_percent acc.1 vtx.tx
              match r.2 with
              | .ok cs => (r.1, acc.2.1, acc.2.2.1 ++ cs, acc.2.2.2 ++ [vtx.tx_id])
              | .error _ => (r.1, (acc.2.1.remove vtx.tx_id).1, acc.2.2.1, acc.2.2.2))
            (rt.ledger, rt.mempool, [], [])).2.2.1 = []
        · simp [try_propose_block, htx, hch]
        · simp [try_propose_block, htx, hch, Consensus.create_proposal, hl]

/-- C9 (amended): on a well-formed runtime (a validator configuration has a
local validator key in the consensus engine, as NodeRuntime::new establishes),
a submit_transaction that returns an error leaves the ledger (pending buffer,
committed store, burned counter), the consensus engine and the cached versions
and root exactly as they were, and leaves the mempool unchanged UNLESS the pool
was at capacity and the per-sender limit then rejected the transaction, in
which case exactly the lowest-priority entry has been evicted. -/
theorem submit_transaction_error_isolation (groups : List (List Relyo.VTx))
    (hchanges pid now : Nat) (rt : Runtime) (vtx : Relyo.VTx)
    (hwf : rt.config_is_validator = true → rt.consensus.local_validator.isSome = true) :
    ∀ e rt1, submit_transaction groups hchanges pid now rt vtx = (rt1, .error e) →
      rt1.ledger = rt.ledger ∧ rt1.consensus = rt.consensus ∧
      rt1.state_version = rt.state_version ∧ rt1.state_root = rt.state_root ∧
      rt1.store_version = rt.store_version ∧
      (rt1.mempool = rt.mempool ∨
        ∃ p0 id0 idv, rt.mempool.by_priority.head? = some ((p0, id0), idv) ∧
          rt1.mempool = ((rt.mempool.remove id0).1)) := by
  intro e rt1 hsub
  cases hv : validate rt.cfg now rt.ledger.committed vtx.tx with
  | error ev =>
      simp [submit_transaction, hv] at hsub
      rw [← hsub.1]
      exact ⟨rfl, rfl, rfl, rfl, rfl, Or.inl rfl⟩
  | ok u =>
      by_cases hadd : (rt.mempool.add now vtx).2 = false
      · simp [submit_transaction, hv, hadd] at hsub
        rw [← hsub.1]
        refine ⟨rfl, rfl, rfl, rfl, rfl, ?_⟩
        rcases Relyo.mempool_add_false_cases rt.mempool now vtx hadd with h | ⟨p0, id0, idv, hh, heq⟩
        · exact Or.inl h
        · exact Or.inr ⟨p0, id0, idv, hh, heq⟩
      · cases hvalr : rt.config_is_validator with
        | false => simp [submit_transaction, hv, hadd, hvalr] at hsub
        | true =>
            have hnoerr : (try_propose_block groups hchanges pid now
                { config_is_validator := true, cfg := rt.cfg, ledger := rt.ledger,
                  store_version := rt.store_version, mempool := (rt.mempool.add now vtx).1,
                  consensus := rt.consensus, state_version := rt.state_version,
                  state_root := rt.state_root }).2 = .ok () :=
              try_propose_block_no_error groups hchanges pid now _
                (by simpa using hwf hvalr)
            simp [submit_transaction, hv, hadd, hvalr, hnoerr] at hsub

/-- Runtime state after the failing C9 submit: the error was returned with
sender 2's old transaction retained but tx 10 (sender 1) already evicted. -/
def c9rt1 : Runtime :=
  ⟨false, ⟨0, 1000000, 3600, 0⟩, ⟨[(2, ⟨100, 0⟩)], [], 0⟩, 0,
    ⟨[(11, ⟨⟨⟨2, 9, 0, 5, 0, 0⟩, 11⟩, 0, 5⟩)], [(2, [11])], [((5, 11), 11)], 2, 1⟩,
    ⟨[], none, Consensus.ProposalStore.empty, [], 0, 0, [], []⟩, 0, 0⟩

/-- C9 (witness): the isolation theorem applied at the concrete failing
submit of the C9 scenario. -/
theorem submit_transaction_error_isolation_witness :
    c9rt1.ledger = c9rt.ledger ∧ c9rt1.consensus = c9rt.consensus ∧
    c9rt1.state_version = c9rt.state_version ∧ c9rt1.state_root = c9rt.state_root ∧
    c9rt1.store_version = c9rt.store_version ∧
    (c9rt1.mempool = c9rt.mempool ∨
      ∃ p0 id0 idv, c9rt.mempool.by_priority.head? = some ((p0, id0), idv) ∧
        c9rt1.mempool = ((c9rt.mempool.remove id0).1)) :=
  submit_transaction_error_isolation [] 0 0 0 c9rt ⟨⟨2, 9, 1, 3, 0, 0⟩, 12⟩
    (fun h => absurd h (by decide)) .InvalidTransaction c9rt1 (by decide)

end NodeRuntime
